import Mathlib

/-!
# A verification of the `poed` text editor core

This file embeds the text-buffer/cursor model, the layout computation, the
navigation logic and the save protocol of the `poed` editor (`src/main.rs`)
as executable Lean definitions over `List Char` buffers, and settles the
behavioural properties of its specification against them.

Modelling conventions:
* a Rust `String` becomes a `List Char`; `usize` becomes `Nat` (a `usize`
  overflow is not reachable for any realisable buffer);
* the `u16` casts in `Poem::get_cursor_offset` are modelled by an explicit
  `% 65536`;
* a Rust panic (failed `unwrap`, out-of-bounds `insert`/`remove`, integer
  underflow/overflow) is modelled by `Option`, with `none` meaning the
  operation aborts; the unbounded `while` loops in the key handlers are
  modelled with enough fuel that running out of fuel coincides exactly with
  the Rust loop never terminating.
-/

/-- `str::split('\n')`, core worker: the first chunk and the remaining chunks. -/
def splitNlCore : List Char → List Char × List (List Char)
  | [] => ([], [])
  | c :: rest =>
    let r := splitNlCore rest
    if c = '\n' then ([], r.1 :: r.2) else (c :: r.1, r.2)

/-- `str::split('\n')`: the list of `'\n'`-separated chunks (always nonempty). -/
def splitNl (s : List Char) : List (List Char) :=
  (splitNlCore s).1 :: (splitNlCore s).2

/-- Strip one trailing `'\r'` (the `\r\n` handling inside `str::lines`). -/
def stripCr (l : List Char) : List Char :=
  if l.getLast? = some '\r' then l.dropLast else l

/-- `str::lines` acting on the chunks produced by `splitNl`: every chunk that
was followed by a separator is `'\r'`-stripped, a final empty chunk is
dropped, a final nonempty chunk is kept verbatim. -/
def linesAux : List (List Char) → List (List Char)
  | [] => []
  | [l] => if l = [] then [] else [l]
  | l :: l' :: ls => stripCr l :: linesAux (l' :: ls)

/-- Rust's `str::lines()`. -/
def rustLines (s : List Char) : List (List Char) := linesAux (splitNl s)

/-- The editor state (`struct Poem`). -/
structure Poem where
  buffer : List Char
  cursor : Nat
  target_line_pos : Nat
  name : Option (List Char)
deriving Repr, DecidableEq

/-- `Poem::from_str`. -/
def Poem.from_str (text : List Char) : Poem :=
  { buffer := text, cursor := 0, target_line_pos := 0, name := none }

/-- `Poem::with_name`. -/
def Poem.with_name (p : Poem) (n : List Char) : Poem := { p with name := some n }

/-- Consumed length of each chunk: chunk length plus one for its separator
(`self.buffer.split('\n').map(|e| e.len() + 1)`). -/
def segLens (s : List Char) : List Nat := (splitNl s).map (fun e => e.length + 1)

/-- The subtracting loop inside `Poem::get_cursor_offset`, before the `u16`
casts; falls through to the initial `(0, 0)` when the counter never fits. -/
def gcoLoop : List Nat → Nat → Nat → Nat × Nat
  | [], _, _ => (0, 0)
  | l :: ls, counter, idx =>
    if l ≤ counter then gcoLoop ls (counter - l) (idx + 1) else (counter, idx)

/-- `Poem::get_cursor_offset` without the final `u16` truncation. -/
def offsNat (s : List Char) (c : Nat) : Nat × Nat := gcoLoop (segLens s) c 0

/-- `Poem::get_cursor_offset`: the `(column, row)` pair as Rust `u16` values. -/
def Poem.get_cursor_offset (p : Poem) : Nat × Nat :=
  ((offsNat p.buffer p.cursor).1 % 65536, (offsNat p.buffer p.cursor).2 % 65536)

/-- `enum EditOperation`. -/
inductive EditOperation where
  | Insert : Char → EditOperation
  | DeleteRight
  | DeleteLeft
  | Newline

/-- `String::insert` (`none` models the panic when the index is out of bounds). -/
def insertAt : List Char → Nat → Char → Option (List Char)
  | l, 0, c => some (c :: l)
  | [], _ + 1, _ => none
  | x :: l, n + 1, c => (insertAt l n c).map (x :: ·)

/-- `String::remove` (`none` models the panic when the index is out of bounds). -/
def removeAt : List Char → Nat → Option (List Char)
  | [], _ => none
  | _ :: l, 0 => some l
  | x :: l, n + 1 => (removeAt l n).map (x :: ·)

/-- `Poem::modify`. -/
def Poem.modify (p : Poem) : EditOperation → Option Poem
  | .Insert c =>
    (insertAt p.buffer p.cursor c).map fun b =>
      { p with buffer := b, cursor := p.cursor + 1 }
  | .DeleteRight =>
    if p.cursor = p.buffer.length then some p
    else (removeAt p.buffer p.cursor).map fun b => { p with buffer := b }
  | .DeleteLeft =>
    if p.cursor = 0 then some p
    else
      let cur := p.cursor - 1
      if cur + 1 = p.buffer.length then
        some { p with cursor := cur, buffer := p.buffer.dropLast }
      else
        (removeAt p.buffer cur).map fun b => { p with cursor := cur, buffer := b }
  | .Newline => (insertAt p.buffer p.cursor '\n').map fun b => { p with buffer := b }

/-- Truncated column reported by `get_cursor_offset` at an arbitrary offset. -/
def colT (s : List Char) (c : Nat) : Nat := (offsNat s c).1 % 65536

/-- Truncated row reported by `get_cursor_offset` at an arbitrary offset. -/
def rowT (s : List Char) (c : Nat) : Nat := (offsNat s c).2 % 65536

/-- The rightward `while get_cursor_offset().0 != target { cursor += 1 }` loop. -/
def scanRight (s : List Char) (target : Nat) : Nat → Nat → Option Nat
  | 0, _ => none
  | fuel + 1, c =>
    if colT s c = target then some c else scanRight s target fuel (c + 1)

/-- The leftward `while get_cursor_offset().0 != target { cursor -= 1 }` loop
(`none` models the `usize` underflow when the loop walks past offset 0). -/
def scanLeft (s : List Char) (target : Nat) : Nat → Nat → Option Nat
  | 0, _ => none
  | fuel + 1, c =>
    if colT s c = target then some c
    else if c = 0 then none else scanLeft s target fuel (c - 1)

/-- The `while current_pos.1 == get_cursor_offset().1 { cursor += 1 }` loop
of the `Key::Down` arm. -/
def skipRow (s : List Char) (r : Nat) : Nat → Nat → Option Nat
  | 0, _ => none
  | fuel + 1, c => if rowT s c = r then skipRow s r fuel (c + 1) else some c

/-- `Poem::cursor_end_line` (the `End` key): `none` models the `unwrap` panic
on a missing line and the `usize` underflow of `len - column`. -/
def Poem.cursor_end_line (p : Poem) : Option Poem :=
  let cp := p.get_cursor_offset
  match (rustLines p.buffer)[cp.2]? with
  | none => none
  | some l =>
    if l.length < cp.1 then none
    else some { p with cursor := p.cursor + (l.length - cp.1) }

/-- `Poem::cursor_start_line` (the `Home` key). -/
def Poem.cursor_start_line (p : Poem) : Option Poem :=
  (scanLeft p.buffer 0 (p.cursor + 1) p.cursor).map fun c => { p with cursor := c }

/-- The `Key::Left` arm of the event loop. -/
def leftStep (p : Poem) : Poem :=
  if p.cursor = 0 then p else { p with cursor := p.cursor - 1 }

/-- The `Key::Right` arm of the event loop. -/
def rightStep (p : Poem) : Poem :=
  if p.cursor = p.buffer.length then p else { p with cursor := p.cursor + 1 }

/-- The `Key::Up` arm of the event loop. -/
def upStep (p : Poem) : Option Poem :=
  let cp := p.get_cursor_offset
  let p1 : Poem := { p with target_line_pos := cp.1 }
  if cp.2 = 0 then some { p1 with cursor := 0 }
  else
    match (rustLines p1.buffer)[cp.2 - 1]? with
    | none => none
    | some pl =>
      if p1.target_line_pos ≤ pl.length then
        if p1.cursor = 0 then none
        else
          (scanLeft p1.buffer p1.target_line_pos p1.cursor (p1.cursor - 1)).map
            fun c => { p1 with cursor := c }
      else
        if p1.cursor < cp.1 + 1 then none
        else some { p1 with cursor := p1.cursor - (cp.1 + 1) }

/-- The `Key::Down` arm of the event loop.  The `cnt % 65536 = 0` and
`65535 ≤ cp.2` guards model the `u16` underflow of `count() as u16 - 1` and
the `u16` overflow of `current_pos.1 + 1`. -/
def downStep (p : Poem) : Option Poem :=
  let cp := p.get_cursor_offset
  let p1 : Poem := { p with target_line_pos := cp.1 }
  let cnt := (rustLines p1.buffer).length
  if cnt % 65536 = 0 then none
  else if cp.2 = cnt % 65536 - 1 then p1.cursor_end_line
  else if 65535 ≤ cp.2 then none
  else
    match (rustLines p1.buffer)[cp.2 + 1]? with
    | none => none
    | some nl =>
      if p1.target_line_pos ≤ nl.length then
        (scanRight p1.buffer p1.target_line_pos (p1.buffer.length + 2)
            (p1.cursor + 1)).map fun c => { p1 with cursor := c }
      else
        match skipRow p1.buffer cp.2 (p1.buffer.length + 2) p1.cursor with
        | none => none
        | some c => Poem.cursor_end_line { p1 with cursor := c }

/-- `str::split_once('\n')`. -/
def splitOnceNl : List Char → Option (List Char × List Char)
  | [] => none
  | c :: rest =>
    if c = '\n' then some ([], rest)
    else (splitOnceNl rest).map fun a => (c :: a.1, a.2)

/-- The `Key::Ctrl('s')` arm, modelled as the new editor state plus the
written `(path, contents)` pair; `none` models the two `unwrap` panics of the
unnamed branch. -/
def saveStep (p : Poem) : Option (Poem × (List Char × List Char)) :=
  match p.name with
  | some path => some (p, (path, p.buffer))
  | none =>
    match (rustLines p.buffer).head? with
    | none => none
    | some first =>
      match splitOnceNl p.buffer with
      | none => none
      | some pr =>
        some ({ p with name := some first, buffer := pr.2 }, (first, pr.2))

/-- `X_PADDING`. -/
def X_PADDING : Nat := 3

/-- `Y_PADDING`. -/
def Y_PADDING : Nat := 1

/-- The `"<no name>"` placeholder label. -/
def noNameLabel : List Char := ['<', 'n', 'o', ' ', 'n', 'a', 'm', 'e', '>']

/-- `get_name`. -/
def get_name (maybe_name : Option (List Char)) : List Char :=
  maybe_name.getD noNameLabel

/-- `make_input`: display lines, content width, content height.  `none`
models the `unwrap` panic on `reduce` over an empty iterator (not reachable
from a nonempty buffer). -/
def make_input (input : List Char) : Option (List (List Char) × Nat × Nat) :=
  if input.length = 0 then some ([[' ']], 1, 1)
  else
    match (rustLines input).map (fun e => e ++ [' ']) with
    | [] => none
    | l :: ls =>
      let longest := ls.foldl (fun acc e => if acc.length < e.length then e else acc) l
      some (l :: ls, longest.length, (l :: ls).length)

/-- `frame_buffer`: framed lines, outer width, outer height.  The `Nat`
subtraction `x_size - e.length` matches the Rust `usize` subtraction, which
cannot underflow for the inputs `make_input` produces. -/
def frame_buffer (input : List (List Char)) (x_size0 : Nat)
    (name : Option (List Char)) : List (List Char) × Nat × Nat :=
  let name_line := get_name name
  let x_size := max x_size0 name_line.length
  let top_line : List Char := '┌' :: (List.replicate (x_size + X_PADDING * 2) '─' ++ ['┐'])
  let pad_line : List Char := '│' :: (List.replicate (x_size + X_PADDING * 2) ' ' ++ ['│'])
  let bottom_line : List Char := '└' :: (List.replicate (x_size + X_PADDING * 2) '─' ++ ['┘'])
  let body := input.map fun e =>
    '│' :: (List.replicate X_PADDING ' ' ++ e ++ List.replicate (x_size - e.length) ' ' ++
      List.replicate X_PADDING ' ' ++ ['│'])
  let res := top_line :: (List.replicate Y_PADDING pad_line ++ body ++
    List.replicate Y_PADDING pad_line ++ [bottom_line])
  (res, x_size + 2 + X_PADDING * 2, res.length)

/-- The layout stage of `draw_screen`: `make_input` followed by
`frame_buffer` with no name label (`draw_screen` passes `None`). -/
def layout (buffer : List Char) : Option (List (List Char) × Nat × Nat) :=
  (make_input buffer).map fun mi => frame_buffer mi.1 mi.2.1 none

/-- The cursor invariant: `0 ≤ cursor ≤ len(content)`. -/
def Poem.wf (p : Poem) : Prop := p.cursor ≤ p.buffer.length

instance (p : Poem) : Decidable p.wf := by unfold Poem.wf; infer_instance

/-- A fallible operation preserves the invariant when, if it completes, the
resulting state satisfies the invariant. -/
def wfOpt : Option Poem → Prop
  | none => True
  | some q => q.wf

/-- Number of separator characters strictly before offset `c`. -/
def specRow (s : List Char) (c : Nat) : Nat := (s.take c).count '\n'

/-- Offset of the first character of the row that offset `c` lies on. -/
def specLineStart (s : List Char) (c : Nat) : Nat :=
  c - ((s.take c).reverse.takeWhile (fun x => x != '\n')).length

/-- The column the specification assigns to offset `c`: the cursor offset
minus the offset of the first character of its row. -/
def specCol (s : List Char) (c : Nat) : Nat := c - specLineStart s c

/-- Offset of the first character of row `r`: the consumed lengths of the
rows before it. -/
def lineStartN (s : List Char) (r : Nat) : Nat := ((segLens s).take r).sum

/-! ### Specification-side helpers -/

/-- The prefix of the buffer before the first separator. -/
def firstLineRaw (s : List Char) : List Char := s.takeWhile (fun x => x != '\n')

/-- The buffer contents after the first separator. -/
def restAfterFirst (s : List Char) : List Char :=
  s.drop ((firstLineRaw s).length + 1)

/-- The maximum display-line length: each line of the buffer plus one
trailing pad space. -/
def maxDisplayLen (buffer : List Char) : Nat :=
  (((rustLines buffer).map (fun e => e ++ [' '])).map List.length).foldr max 0

/-- All the editing and navigation operations of the event loop preserve the
cursor invariant on this state. -/
def preservesInvariant (p : Poem) : Prop :=
  (∀ e, wfOpt (p.modify e)) ∧ (leftStep p).wf ∧ (rightStep p).wf ∧
  wfOpt (upStep p) ∧ wfOpt (downStep p) ∧ wfOpt p.cursor_start_line ∧
  wfOpt p.cursor_end_line

/-- `n` copies of a chunk of text, concatenated. -/
def repJoin (l : List Char) (n : Nat) : List Char := (List.replicate n l).flatten

/-! ### Concrete editor states used by the claims -/

/-- The buffer `"abcdef\nxy"` with the cursor at the end of line 0. -/
def exampleClamp : Poem :=
  { buffer := ['a', 'b', 'c', 'd', 'e', 'f', '\n', 'x', 'y'], cursor := 6,
    target_line_pos := 0, name := none }

/-- The buffer `"abc\ndef\nghi"` with the cursor at column 1 of row 1. -/
def exampleRound : Poem :=
  { buffer := ['a', 'b', 'c', '\n', 'd', 'e', 'f', '\n', 'g', 'h', 'i'], cursor := 5,
    target_line_pos := 0, name := none }

/-- The buffer `"ab"` with the cursor between the two characters. -/
def exampleAb : Poem :=
  { buffer := ['a', 'b'], cursor := 1, target_line_pos := 0, name := none }

/-- The unnamed buffer `"title\nbody text"`. -/
def exampleTitle : Poem :=
  { buffer := ['t', 'i', 't', 'l', 'e', '\n', 'b', 'o', 'd', 'y', ' ', 't', 'e', 'x', 't'],
    cursor := 0, target_line_pos := 0, name := none }

/-- A buffer that is a single line of 65537 letters, cursor at offset 65536:
the `u16` cast truncates the reported column. -/
def bigCol : Poem :=
  { buffer := List.replicate 65537 'a', cursor := 65536,
    target_line_pos := 0, name := none }

/-- 65538 lines of `"ab"`, cursor at column 1 of row 1: the `u16` cast of the
line count makes the `Key::Down` arm treat row 1 as the last row. -/
def bigRound : Poem :=
  { buffer := repJoin ['a', 'b', '\n'] 65537 ++ ['a', 'b'], cursor := 4,
    target_line_pos := 0, name := none }

/-- Lines `"ab"`, `"ab"`, `"a"` followed by 65535 more lines of `"ab"`
(65538 lines in all), cursor at the end of row 1. -/
def bigClamp : Poem :=
  { buffer := ['a', 'b', '\n', 'a', 'b', '\n', 'a', '\n'] ++
      repJoin ['a', 'b', '\n'] 65534 ++ ['a', 'b'],
    cursor := 5, target_line_pos := 0, name := none }

/-- An empty line, the line `"aa"`, 65534 more empty lines, the line `"aaa"`
and the line `"z"` (65538 lines in all), cursor at the end of row 65536:
the `Key::Down` arm reads the length of the wrong line and overshoots. -/
def bigDown : Poem :=
  { buffer := '\n' :: 'a' :: 'a' :: '\n' ::
      (List.replicate 65534 '\n' ++ ['a', 'a', 'a', '\n', 'z']),
    cursor := 65541, target_line_pos := 0, name := none }

/-- 65536 copies of `"ab\n"`, cursor at the end of the buffer: the truncated
row index makes `cursor_end_line` read line 0 and complete. -/
def bigEnd : Poem :=
  { buffer := repJoin ['a', 'b', '\n'] 65536, cursor := 196608,
    target_line_pos := 0, name := none }

/-! ## Structure of `splitNl` -/

theorem splitNlCore_nil : splitNlCore [] = ([], []) := rfl

theorem splitNlCore_cons_nl (s : List Char) :
    splitNlCore ('\n' :: s) = ([], (splitNlCore s).1 :: (splitNlCore s).2) := by
  simp [splitNlCore]

theorem splitNlCore_cons_not_nl {x : Char} (h : x ≠ '\n') (s : List Char) :
    splitNlCore (x :: s) = (x :: (splitNlCore s).1, (splitNlCore s).2) := by
  simp [splitNlCore, h]

theorem splitNl_nil : splitNl [] = [[]] := rfl

theorem splitNl_cons_nl (s : List Char) : splitNl ('\n' :: s) = [] :: splitNl s := by
  simp [splitNl, splitNlCore_cons_nl]

theorem splitNl_ne_nil (s : List Char) : splitNl s ≠ [] := by
  simp [splitNl]

theorem splitNlCore_no_nl {a : List Char} (h : '\n' ∉ a) : splitNlCore a = (a, []) := by
  induction a with
  | nil => rfl
  | cons x t ih =>
    have hx : x ≠ '\n' := fun hc => h (hc ▸ List.mem_cons_self x t)
    have ht : '\n' ∉ t := fun hc => h (List.mem_cons_of_mem x hc)
    rw [splitNlCore_cons_not_nl hx, ih ht]

theorem splitNl_no_nl {a : List Char} (h : '\n' ∉ a) : splitNl a = [a] := by
  simp [splitNl, splitNlCore_no_nl h]

theorem splitNlCore_append {a b : List Char} (h : '\n' ∉ a) :
    splitNlCore (a ++ '\n' :: b) = (a, splitNl b) := by
  induction a with
  | nil => simp [splitNlCore_cons_nl, splitNl]
  | cons x t ih =>
    have hx : x ≠ '\n' := fun hc => h (hc ▸ List.mem_cons_self x t)
    have ht : '\n' ∉ t := fun hc => h (List.mem_cons_of_mem x hc)
    rw [List.cons_append, splitNlCore_cons_not_nl hx, ih ht]

theorem splitNl_append {a b : List Char} (h : '\n' ∉ a) :
    splitNl (a ++ '\n' :: b) = a :: splitNl b := by
  simp [splitNl, splitNlCore_append h]

/-- Every chunk of `splitNl` is free of separators. -/
theorem splitNl_no_nl_mem : ∀ (s : List Char), ∀ t ∈ splitNl s, '\n' ∉ t := by
  intro s
  induction s with
  | nil => intro t ht; rw [splitNl_nil] at ht; simp at ht; simp [ht]
  | cons x u ih =>
    by_cases hx : x = '\n'
    · subst hx
      intro t ht
      rw [splitNl_cons_nl] at ht
      rcases List.mem_cons.mp ht with h | h
      · simp [h]
      · exact ih t h
    · intro t ht
      rw [splitNl, splitNlCore_cons_not_nl hx] at ht
      rcases List.mem_cons.mp ht with h | h
      · subst h
        intro hmem
        rcases List.mem_cons.mp hmem with h | h
        · exact hx h.symm
        · exact ih _ (by rw [splitNl]; exact List.mem_cons_self _ _) h
      · exact ih t (by rw [splitNl]; exact List.mem_cons_of_mem _ h)

/-! ## `segLens` -/

theorem segLens_nil : segLens [] = [1] := rfl

theorem segLens_cons_nl (s : List Char) : segLens ('\n' :: s) = 1 :: segLens s := by
  simp [segLens, splitNl_cons_nl]

theorem segLens_cons_not_nl {x : Char} (h : x ≠ '\n') (s : List Char) :
    segLens (x :: s) = ((splitNlCore s).1.length + 2) ::
      ((splitNlCore s).2.map (fun e => e.length + 1)) := by
  simp [segLens, splitNl, splitNlCore_cons_not_nl h]

theorem segLens_sum (s : List Char) : (segLens s).sum = s.length + 1 := by
  induction s with
  | nil => rfl
  | cons x t ih =>
    by_cases hx : x = '\n'
    · subst hx
      rw [segLens_cons_nl, List.sum_cons, ih]
      simp only [List.length_cons]
      omega
    · rw [segLens_cons_not_nl hx]
      have : segLens t = ((splitNlCore t).1.length + 1) ::
          ((splitNlCore t).2.map (fun e => e.length + 1)) := by
        simp [segLens, splitNl]
      rw [this, List.sum_cons] at ih
      rw [List.sum_cons]
      simp only [List.length_cons]
      omega

theorem segLens_pos (s : List Char) : ∀ x ∈ segLens s, 1 ≤ x := by
  intro x hx
  rcases List.mem_map.mp hx with ⟨t, _, ht⟩
  omega

theorem segLens_length (s : List Char) : (segLens s).length = (splitNl s).length := by
  simp [segLens]

theorem segLens_get (s : List Char) (r : Nat) (h : r < (splitNl s).length) :
    (segLens s).get ⟨r, by rw [segLens_length]; exact h⟩ =
      ((splitNl s).get ⟨r, h⟩).length + 1 := by
  simp [segLens]

/-! ## The subtracting loop -/

theorem gcoLoop_shift (L : List Nat) :
    ∀ c i, c < L.sum →
      gcoLoop L c i = ((gcoLoop L c 0).1, (gcoLoop L c 0).2 + i) := by
  induction L with
  | nil => intro c i h; simp at h
  | cons l ls ih =>
    intro c i h
    by_cases hl : l ≤ c
    · rw [gcoLoop, if_pos hl, gcoLoop, if_pos hl]
      have hlt : c - l < ls.sum := by
        rw [List.sum_cons] at h; omega
      rw [ih _ (i + 1) hlt, ih _ (0 + 1) hlt]
      refine Prod.ext rfl ?_
      show (gcoLoop ls (c - l) 0).2 + (i + 1) = (gcoLoop ls (c - l) 0).2 + (0 + 1) + i
      omega
    · rw [gcoLoop, if_neg hl, gcoLoop, if_neg hl]
      exact Prod.ext rfl (by show i = 0 + i; omega)

theorem gcoLoop_fall (L : List Nat) : ∀ c i, L.sum ≤ c → gcoLoop L c i = (0, 0) := by
  induction L with
  | nil => intro c i _; rfl
  | cons l ls ih =>
    intro c i h
    rw [List.sum_cons] at h
    have hl : l ≤ c := le_trans (Nat.le_add_right _ _) h
    rw [gcoLoop, if_pos hl]
    exact ih _ _ (by omega)

theorem take_sum_succ (L : List Nat) :
    ∀ r, (h : r < L.length) → (L.take (r + 1)).sum = (L.take r).sum + L.get ⟨r, h⟩ := by
  induction L with
  | nil => intro r h; simp at h
  | cons l ls ih =>
    intro r h
    cases r with
    | zero => simp
    | succ r =>
      have h' : r < ls.length := by simpa using h
      simp only [List.take_succ_cons, List.sum_cons, List.get_cons_succ]
      rw [ih r h']
      omega

theorem take_sum_mono (L : List Nat) :
    ∀ {r r' : Nat}, r ≤ r' → (L.take r).sum ≤ (L.take r').sum := by
  induction L with
  | nil => intro r r' _; simp
  | cons l ls ih =>
    intro r r' h
    cases r with
    | zero => simp
    | succ r =>
      cases r' with
      | zero => omega
      | succ r' =>
        simp only [List.take_succ_cons, List.sum_cons]
        exact Nat.add_le_add_left (ih (Nat.succ_le_succ_iff.mp h)) l

theorem take_sum_lt_sum (L : List Nat) :
    ∀ r, (h : r < L.length) → ∀ d, d < L.get ⟨r, h⟩ → (L.take r).sum + d < L.sum := by
  induction L with
  | nil => intro r h; simp at h
  | cons l ls ih =>
    intro r h d hd
    cases r with
    | zero =>
      have hd0 : d < l := by simpa using hd
      simp only [List.take_zero, List.sum_nil, List.sum_cons, Nat.zero_add]
      exact Nat.lt_of_lt_of_le hd0 (Nat.le_add_right _ _)
    | succ r =>
      have h' : r < ls.length := by simpa using h
      have hd' : d < ls.get ⟨r, h'⟩ := by simpa using hd
      simp only [List.take_succ_cons, List.sum_cons]
      have := ih r h' d hd'
      omega

theorem gcoLoop_char (L : List Nat) :
    ∀ r, (h : r < L.length) → ∀ d, d < L.get ⟨r, h⟩ →
      gcoLoop L ((L.take r).sum + d) 0 = (d, r) := by
  induction L with
  | nil => intro r h; simp at h
  | cons l ls ih =>
    intro r h d hd
    cases r with
    | zero =>
      have hd0 : d < l := by simpa using hd
      simp only [List.take_zero, List.sum_nil, Nat.zero_add]
      rw [gcoLoop, if_neg (by omega)]
    | succ r =>
      have h' : r < ls.length := by simpa using h
      have hd' : d < ls.get ⟨r, h'⟩ := by simpa using hd
      simp only [List.take_succ_cons, List.sum_cons]
      rw [gcoLoop, if_pos (by omega)]
      have harg : l + ((ls.take r).sum + d) - l = (ls.take r).sum + d := by omega
      rw [Nat.add_assoc, harg]
      rw [gcoLoop_shift ls _ _ (take_sum_lt_sum ls r h' d hd'), ih r h' d hd']

theorem gcoLoop_dec (L : List Nat) :
    ∀ c, c < L.sum → ∃ r, ∃ h : r < L.length, ∃ d,
      d < L.get ⟨r, h⟩ ∧ c = (L.take r).sum + d := by
  induction L with
  | nil => intro c h; simp at h
  | cons l ls ih =>
    intro c h
    by_cases hl : c < l
    · exact ⟨0, by simp, c, by simpa using hl, by simp⟩
    · rw [List.sum_cons] at h
      obtain ⟨r, hr, d, hd, hc⟩ := ih (c - l) (by omega)
      refine ⟨r + 1, by simpa using hr, d, by simpa using hd, ?_⟩
      simp only [List.take_succ_cons, List.sum_cons]
      omega

theorem dec_uniq (L : List Nat) {r r' : Nat} (h : r < L.length) (h' : r' < L.length)
    {d d' : Nat} (hd : d < L.get ⟨r, h⟩) (hd' : d' < L.get ⟨r', h'⟩)
    (he : (L.take r).sum + d = (L.take r').sum + d') : r = r' ∧ d = d' := by
  rcases Nat.lt_trichotomy r r' with hlt | heq | hgt
  · exfalso
    have h1 : (L.take (r + 1)).sum ≤ (L.take r').sum := take_sum_mono L hlt
    rw [take_sum_succ L r h] at h1
    omega
  · subst heq
    exact ⟨rfl, by omega⟩
  · exfalso
    have h1 : (L.take (r' + 1)).sum ≤ (L.take r).sum := take_sum_mono L hgt
    rw [take_sum_succ L r' h'] at h1
    omega

/-! ## Geometry of `get_cursor_offset` -/

theorem offsNat_char (s : List Char) (r : Nat) (h : r < (splitNl s).length) (d : Nat)
    (hd : d ≤ ((splitNl s).get ⟨r, h⟩).length) :
    offsNat s (lineStartN s r + d) = (d, r) := by
  have h' : r < (segLens s).length := by rw [segLens_length]; exact h
  have hd' : d < (segLens s).get ⟨r, h'⟩ := by
    rw [segLens_get s r h]; omega
  exact gcoLoop_char (segLens s) r h' d hd'

theorem offsNat_dec (s : List Char) (c : Nat) (hc : c ≤ s.length) :
    ∃ r, ∃ h : r < (splitNl s).length, ∃ d,
      d ≤ ((splitNl s).get ⟨r, h⟩).length ∧ c = lineStartN s r + d := by
  have hsum : c < (segLens s).sum := by rw [segLens_sum]; omega
  obtain ⟨r, h, d, hd, hc'⟩ := gcoLoop_dec (segLens s) c hsum
  have h2 : r < (splitNl s).length := by rwa [segLens_length] at h
  refine ⟨r, h2, d, ?_, hc'⟩
  have h3 : (segLens s).get ⟨r, h⟩ = ((splitNl s).get ⟨r, h2⟩).length + 1 :=
    segLens_get s r h2
  omega

theorem offsNat_fall (s : List Char) (c : Nat) (hc : s.length < c) :
    offsNat s c = (0, 0) := by
  apply gcoLoop_fall
  rw [segLens_sum]; omega

theorem lineStart_add_len_le (s : List Char) (r : Nat) (h : r < (splitNl s).length) :
    lineStartN s r + ((splitNl s).get ⟨r, h⟩).length ≤ s.length := by
  have h' : r < (segLens s).length := by rw [segLens_length]; exact h
  have hlt := take_sum_lt_sum (segLens s) r h' (((splitNl s).get ⟨r, h⟩).length)
    (by rw [segLens_get s r h]; omega)
  rw [segLens_sum] at hlt
  unfold lineStartN
  omega

theorem seg_len_le (s : List Char) (r : Nat) (h : r < (splitNl s).length) :
    ((splitNl s).get ⟨r, h⟩).length ≤ s.length := by
  have := lineStart_add_len_le s r h
  omega

theorem lineStartN_le (s : List Char) (r : Nat) (h : r < (splitNl s).length) :
    lineStartN s r ≤ s.length := by
  have := lineStart_add_len_le s r h
  omega

theorem list_length_le_sum : ∀ (L : List Nat), (∀ x ∈ L, 1 ≤ x) → L.length ≤ L.sum := by
  intro L
  induction L with
  | nil => intro _; simp
  | cons l ls ih =>
    intro h
    have h1 : 1 ≤ l := h l (List.mem_cons_self _ _)
    have h2 := ih (fun x hx => h x (List.mem_cons_of_mem _ hx))
    simp only [List.length_cons, List.sum_cons]
    omega

theorem splitNl_length_le (s : List Char) : (splitNl s).length ≤ s.length + 1 := by
  have h1 := list_length_le_sum (segLens s) (segLens_pos s)
  rw [segLens_sum, segLens_length] at h1
  exact h1

theorem offsNat_dec_uniq (s : List Char) {r r' : Nat}
    (h : r < (splitNl s).length) (h' : r' < (splitNl s).length) {d d' : Nat}
    (hd : d ≤ ((splitNl s).get ⟨r, h⟩).length)
    (hd' : d' ≤ ((splitNl s).get ⟨r', h'⟩).length)
    (he : lineStartN s r + d = lineStartN s r' + d') : r = r' ∧ d = d' := by
  have hL : r < (segLens s).length := by rw [segLens_length]; exact h
  have hL' : r' < (segLens s).length := by rw [segLens_length]; exact h'
  refine dec_uniq (segLens s) hL hL' ?_ ?_ he
  · rw [segLens_get s r h]; omega
  · rw [segLens_get s r' h']; omega

/-! ## Stepping through the buffer one character at a time -/

theorem offsNat_zero (s : List Char) : offsNat s 0 = (0, 0) := by
  unfold offsNat segLens splitNl
  simp only [List.map_cons]
  rw [gcoLoop, if_neg (by omega)]

theorem offsNat_cons_nl (s : List Char) (d : Nat) (hd : d ≤ s.length) :
    offsNat ('\n' :: s) (d + 1) = ((offsNat s d).1, (offsNat s d).2 + 1) := by
  unfold offsNat
  rw [segLens_cons_nl, gcoLoop, if_pos (by omega)]
  have harg : d + 1 - 1 = d := by omega
  rw [harg]
  have := gcoLoop_shift (segLens s) d 1 (by rw [segLens_sum]; omega)
  exact this

theorem offsNat_cons_not_nl {x : Char} (hx : x ≠ '\n') (s : List Char) (d : Nat)
    (hd : d ≤ s.length) :
    offsNat (x :: s) (d + 1) =
      if (offsNat s d).2 = 0 then ((offsNat s d).1 + 1, 0) else offsNat s d := by
  obtain ⟨h0, T, hsegs, hsegx⟩ :
      ∃ h0 T, segLens s = (h0 + 1) :: T ∧ segLens (x :: s) = (h0 + 2) :: T :=
    ⟨(splitNlCore s).1.length, (splitNlCore s).2.map (fun e => e.length + 1),
      by simp [segLens, splitNl], segLens_cons_not_nl hx s⟩
  have hTsum : h0 + 1 + T.sum = s.length + 1 := by
    have h1 := segLens_sum s
    rw [hsegs, List.sum_cons] at h1
    omega
  unfold offsNat
  rw [hsegx, hsegs]
  by_cases hcase : d ≤ h0
  · rw [gcoLoop, if_neg (by omega)]
    have hrhs : gcoLoop ((h0 + 1) :: T) d 0 = (d, 0) := by
      rw [gcoLoop, if_neg (by omega)]
    rw [hrhs, if_pos rfl]
  · have hrhs : gcoLoop ((h0 + 1) :: T) d 0 = gcoLoop T (d - (h0 + 1)) (0 + 1) := by
      rw [gcoLoop, if_pos (by omega)]
    have hsh := gcoLoop_shift T (d - (h0 + 1)) (0 + 1) (by omega)
    have hsnd : (gcoLoop ((h0 + 1) :: T) d 0).2 ≠ 0 := by
      rw [hrhs, hsh]
      show (gcoLoop T (d - (h0 + 1)) 0).2 + (0 + 1) ≠ 0
      omega
    rw [if_neg hsnd, gcoLoop, if_pos (by omega), hrhs]
    have harg1 : d + 1 - (h0 + 2) = d - (h0 + 1) := by omega
    rw [harg1]

/-! ## `takeWhile` utilities -/

theorem takeWhile_append_stop {α : Type} (p : α → Bool) :
    ∀ (l l' : List α), l.takeWhile p ≠ l → (l ++ l').takeWhile p = l.takeWhile p := by
  intro l
  induction l with
  | nil => intro l' h; exact absurd rfl h
  | cons x u ih =>
    intro l' h
    cases hpx : p x with
    | false => simp [List.takeWhile_cons, hpx]
    | true =>
      have hu : u.takeWhile p ≠ u := by
        intro hc
        exact h (by simp [List.takeWhile_cons, hpx, hc])
      simp [List.takeWhile_cons, hpx, ih l' hu]

theorem takeWhile_append_all {α : Type} (p : α → Bool) :
    ∀ (l l' : List α), l.takeWhile p = l → (l ++ l').takeWhile p = l ++ l'.takeWhile p := by
  intro l
  induction l with
  | nil => intro l' _; simp
  | cons x u ih =>
    intro l' h
    cases hpx : p x with
    | false => simp [List.takeWhile_cons, hpx] at h
    | true =>
      have hu : u.takeWhile p = u := by
        rw [List.takeWhile_eq_self_iff] at h ⊢
        intro a ha
        exact h a (List.mem_cons_of_mem _ ha)
      simp [List.takeWhile_cons, hpx, ih l' hu]

theorem takeWhile_append_last_false {α : Type} (p : α → Bool) (l : List α) (a : α)
    (ha : p a = false) : (l ++ [a]).takeWhile p = l.takeWhile p := by
  by_cases h : l.takeWhile p = l
  · rw [takeWhile_append_all p l [a] h]
    simp [List.takeWhile_cons, ha, h]
  · exact takeWhile_append_stop p l [a] h

/-! ## The specification-side reading of `get_cursor_offset` -/

theorem specCol_eq_tw (s : List Char) (c : Nat) :
    specCol s c = ((s.take c).reverse.takeWhile (fun x => x != '\n')).length := by
  unfold specCol specLineStart
  have h1 : ((s.take c).reverse.takeWhile (fun x => x != '\n')).length ≤ c := by
    have h2 := (List.takeWhile_prefix (l := (s.take c).reverse)
      (p := fun x => x != '\n')).length_le
    have h3 : (s.take c).reverse.length ≤ c := by
      rw [List.length_reverse, List.length_take]
      omega
    omega
  omega

theorem specRow_notin (t : List Char) (d : Nat) :
    specRow t d = 0 ↔ '\n' ∉ t.take d := by
  unfold specRow
  exact List.count_eq_zero

theorem tw_self_iff_notin (u : List Char) :
    u.reverse.takeWhile (fun x => x != '\n') = u.reverse ↔ '\n' ∉ u := by
  rw [List.takeWhile_eq_self_iff]
  constructor
  · intro h hmem
    have := h '\n' (List.mem_reverse.mpr hmem)
    simp at this
  · intro h a ha
    have hmem := List.mem_reverse.mp ha
    have : a ≠ '\n' := fun hc => h (hc ▸ hmem)
    simpa using this

theorem offsNat_spec (s : List Char) : ∀ c, c ≤ s.length →
    offsNat s c = (specCol s c, specRow s c) := by
  induction s with
  | nil =>
    intro c hc
    have hc0 : c = 0 := by simpa using hc
    subst hc0
    rw [offsNat_zero]
    simp [specCol, specRow, specLineStart]
  | cons x t ih =>
    intro c hc
    cases c with
    | zero =>
      rw [offsNat_zero]
      simp [specCol, specRow, specLineStart]
    | succ d =>
      have hd : d ≤ t.length := by
        simp only [List.length_cons] at hc
        omega
      have htake : (x :: t).take (d + 1) = x :: t.take d := by
        simp [List.take_succ_cons]
      have hrev : ((x :: t).take (d + 1)).reverse = (t.take d).reverse ++ [x] := by
        rw [htake, List.reverse_cons]
      have hlen : (t.take d).length = d := by
        rw [List.length_take]
        omega
      by_cases hx : x = '\n'
      · subst hx
        rw [offsNat_cons_nl t d hd, ih d hd]
        have hcol : specCol ('\n' :: t) (d + 1) = specCol t d := by
          rw [specCol_eq_tw, specCol_eq_tw, hrev,
            takeWhile_append_last_false _ _ _ (by simp)]
        have hrow : specRow ('\n' :: t) (d + 1) = specRow t d + 1 := by
          unfold specRow
          rw [htake, List.count_cons]
          simp
        rw [hcol, hrow]
      · rw [offsNat_cons_not_nl hx t d hd, ih d hd]
        have hrow : specRow (x :: t) (d + 1) = specRow t d := by
          unfold specRow
          rw [htake, List.count_cons]
          simp [hx]
        by_cases h0 : specRow t d = 0
        · have hnot : '\n' ∉ t.take d := (specRow_notin t d).mp h0
          have hself : (t.take d).reverse.takeWhile (fun y => y != '\n') =
              (t.take d).reverse := (tw_self_iff_notin (t.take d)).mpr hnot
          have hcol : specCol (x :: t) (d + 1) = specCol t d + 1 := by
            rw [specCol_eq_tw, specCol_eq_tw, hrev,
              takeWhile_append_all _ _ _ hself]
            rw [List.length_append, hself]
            simp [List.takeWhile_cons, hx]
          rw [if_pos (show (specCol t d, specRow t d).2 = 0 from h0)]
          rw [Prod.mk.injEq]
          constructor
          · show specCol t d + 1 = specCol (x :: t) (d + 1)
            omega
          · show (0 : Nat) = specRow (x :: t) (d + 1)
            omega
        · have hnot : '\n' ∈ t.take d := by
            by_contra hc
            exact h0 ((specRow_notin t d).mpr hc)
          have hnself : (t.take d).reverse.takeWhile (fun y => y != '\n') ≠
              (t.take d).reverse := fun hc => ((tw_self_iff_notin (t.take d)).mp hc) hnot
          have hcol : specCol (x :: t) (d + 1) = specCol t d := by
            rw [specCol_eq_tw, specCol_eq_tw, hrev,
              takeWhile_append_stop _ _ _ hnself]
          rw [if_neg (show ¬((specCol t d, specRow t d).2 = 0) from h0)]
          rw [Prod.mk.injEq]
          exact ⟨hcol.symm, hrow.symm⟩

/-! ## Structure of `rustLines` -/

theorem stripCr_length_le (l : List Char) : (stripCr l).length ≤ l.length := by
  unfold stripCr
  by_cases h : l.getLast? = some '\r'
  · rw [if_pos h, List.length_dropLast]
    omega
  · rw [if_neg h]

theorem stripCr_length_ge (l : List Char) : l.length ≤ (stripCr l).length + 1 := by
  unfold stripCr
  by_cases h : l.getLast? = some '\r'
  · rw [if_pos h, List.length_dropLast]
    omega
  · rw [if_neg h]
    omega

theorem linesAux_cons_ne (l₀ : List Char) (L : List (List Char)) (h : L ≠ []) :
    linesAux (l₀ :: L) = stripCr l₀ :: linesAux L := by
  cases L with
  | nil => exact absurd rfl h
  | cons l₁ ls => rfl

theorem linesAux_snoc_ne : ∀ (L : List (List Char)) (last : List Char), last ≠ [] →
    linesAux (L ++ [last]) = L.map stripCr ++ [last] := by
  intro L
  induction L with
  | nil =>
    intro last h
    simp [linesAux, h]
  | cons l₀ L' ih =>
    intro last h
    rw [List.cons_append, linesAux_cons_ne _ _ (by simp), ih last h, List.map_cons,
      List.cons_append]

theorem linesAux_snoc_empty : ∀ (L : List (List Char)),
    linesAux (L ++ [[]]) = L.map stripCr := by
  intro L
  induction L with
  | nil => simp [linesAux]
  | cons l₀ L' ih =>
    rw [List.cons_append, linesAux_cons_ne _ _ (by simp), ih, List.map_cons]

theorem rustLines_last_empty (s : List Char)
    (h : (splitNl s).getLast (splitNl_ne_nil s) = []) :
    rustLines s = (splitNl s).dropLast.map stripCr := by
  unfold rustLines
  conv_lhs => rw [← List.dropLast_append_getLast (splitNl_ne_nil s), h]
  exact linesAux_snoc_empty _

theorem rustLines_last_ne (s : List Char)
    (h : (splitNl s).getLast (splitNl_ne_nil s) ≠ []) :
    rustLines s = (splitNl s).dropLast.map stripCr ++
      [(splitNl s).getLast (splitNl_ne_nil s)] := by
  unfold rustLines
  conv_lhs => rw [← List.dropLast_append_getLast (splitNl_ne_nil s)]
  exact linesAux_snoc_ne _ _ h

theorem rustLines_length_le_segs (s : List Char) :
    (rustLines s).length ≤ (splitNl s).length := by
  by_cases h : (splitNl s).getLast (splitNl_ne_nil s) = []
  · rw [rustLines_last_empty s h, List.length_map, List.length_dropLast]
    omega
  · rw [rustLines_last_ne s h, List.length_append, List.length_map,
      List.length_dropLast]
    have := splitNl_ne_nil s
    have : 0 < (splitNl s).length := List.length_pos.mpr this
    simp
    omega

theorem rustLines_length_le (s : List Char) : (rustLines s).length ≤ s.length := by
  have hseg := segLens_sum s
  have hlenpos : 0 < (splitNl s).length := List.length_pos.mpr (splitNl_ne_nil s)
  by_cases h : (splitNl s).getLast (splitNl_ne_nil s) = []
  · rw [rustLines_last_empty s h, List.length_map, List.length_dropLast]
    have := splitNl_length_le s
    omega
  · rw [rustLines_last_ne s h, List.length_append, List.length_map,
      List.length_dropLast]
    simp only [List.length_singleton]
    -- the last chunk is nonempty, so its consumed length is at least 2
    have hdec : segLens s = ((splitNl s).dropLast.map (fun e => e.length + 1)) ++
        [((splitNl s).getLast (splitNl_ne_nil s)).length + 1] := by
      unfold segLens
      conv_lhs => rw [← List.dropLast_append_getLast (splitNl_ne_nil s)]
      rw [List.map_append, List.map_singleton]
    have hinit : ((splitNl s).dropLast.map (fun e => e.length + 1)).length ≤
        ((splitNl s).dropLast.map (fun e => e.length + 1)).sum :=
      list_length_le_sum _ (by
        intro x hx
        rcases List.mem_map.mp hx with ⟨t, _, ht⟩
        omega)
    have hlast2 : 2 ≤ ((splitNl s).getLast (splitNl_ne_nil s)).length + 1 := by
      have := List.length_pos.mpr h
      omega
    rw [hdec, List.sum_append, List.sum_cons, List.sum_nil] at hseg
    simp only [List.length_map, List.length_dropLast] at hinit
    omega

theorem rustLines_get_bounds (s : List Char) (r : Nat) (l : List Char)
    (hg : (rustLines s)[r]? = some l) :
    ∃ h : r < (splitNl s).length,
      l.length ≤ ((splitNl s).get ⟨r, h⟩).length ∧
      ((splitNl s).get ⟨r, h⟩).length ≤ l.length + 1 := by
  have hr : r < (rustLines s).length := by
    by_contra hc
    rw [List.getElem?_eq_none (by omega)] at hg
    exact Option.noConfusion hg
  have hrs : r < (splitNl s).length := lt_of_lt_of_le hr (rustLines_length_le_segs s)
  refine ⟨hrs, ?_⟩
  by_cases h : (splitNl s).getLast (splitNl_ne_nil s) = []
  · rw [rustLines_last_empty s h] at hg hr
    rw [List.length_map, List.length_dropLast] at hr
    rw [List.getElem?_map] at hg
    have hdl : (splitNl s).dropLast[r]? = some ((splitNl s).get ⟨r, hrs⟩) := by
      rw [List.getElem?_eq_getElem (by rw [List.length_dropLast]; omega)]
      congr 1
      rw [List.getElem_dropLast, List.get_eq_getElem]
    rw [hdl] at hg
    simp only [Option.map_some'] at hg
    have hl : l = stripCr ((splitNl s).get ⟨r, hrs⟩) := by
      exact (Option.some.injEq _ _ ▸ hg).symm
    subst hl
    exact ⟨stripCr_length_le _, stripCr_length_ge _⟩
  · rw [rustLines_last_ne s h] at hg
    by_cases hrlt : r < (splitNl s).dropLast.length
    · rw [List.getElem?_append_left (by rw [List.length_map]; exact hrlt)] at hg
      rw [List.getElem?_map] at hg
      have hdl : (splitNl s).dropLast[r]? = some ((splitNl s).get ⟨r, hrs⟩) := by
        rw [List.getElem?_eq_getElem hrlt]
        congr 1
        rw [List.getElem_dropLast, List.get_eq_getElem]
      rw [hdl] at hg
      simp only [Option.map_some'] at hg
      have hl : l = stripCr ((splitNl s).get ⟨r, hrs⟩) := by
        exact (Option.some.injEq _ _ ▸ hg).symm
      subst hl
      exact ⟨stripCr_length_le _, stripCr_length_ge _⟩
    · have hrdl : (splitNl s).dropLast.length = (splitNl s).length - 1 :=
        List.length_dropLast _
      have hreq : r = (splitNl s).length - 1 := by omega
      rw [List.getElem?_append_right (by rw [List.length_map]; omega)] at hg
      rw [List.length_map] at hg
      have hzero : r - (splitNl s).dropLast.length = 0 := by omega
      rw [hzero] at hg
      simp only [List.getElem?_cons_zero] at hg
      have hl : l = (splitNl s).getLast (splitNl_ne_nil s) := by
        exact (Option.some.injEq _ _ ▸ hg).symm
      subst hreq
      have hgl : (splitNl s).getLast (splitNl_ne_nil s) =
          (splitNl s).get ⟨(splitNl s).length - 1, hrs⟩ := by
        rw [List.getLast_eq_getElem, List.get_eq_getElem]
      rw [hl, hgl]
      omega

/-! ## Characterization of the scanning loops -/

theorem scanRight_some (s : List Char) (t : Nat) :
    ∀ fuel c c', scanRight s t fuel c = some c' →
      c ≤ c' ∧ c' < c + fuel ∧ colT s c' = t ∧
        ∀ m, c ≤ m → m < c' → colT s m ≠ t := by
  intro fuel
  induction fuel with
  | zero => intro c c' h; exact Option.noConfusion h
  | succ fuel ih =>
    intro c c' h
    rw [scanRight] at h
    by_cases hc : colT s c = t
    · rw [if_pos hc] at h
      obtain rfl : c = c' := Option.some.inj h
      exact ⟨le_refl c, by omega, hc, fun m h1 h2 => absurd h1 (by omega)⟩
    · rw [if_neg hc] at h
      obtain ⟨h1, h2, h3, h4⟩ := ih (c + 1) c' h
      refine ⟨by omega, by omega, h3, ?_⟩
      intro m hm1 hm2
      by_cases hmc : m = c
      · subst hmc; exact hc
      · exact h4 m (by omega) hm2

theorem scanRight_mem (s : List Char) (t : Nat) :
    ∀ fuel c m, c ≤ m → m < c + fuel → colT s m = t →
      ∃ c', scanRight s t fuel c = some c' ∧ c' ≤ m := by
  intro fuel
  induction fuel with
  | zero => intro c m h1 h2 h3; exact absurd h2 (by omega)
  | succ fuel ih =>
    intro c m h1 h2 h3
    by_cases hc : colT s c = t
    · exact ⟨c, by rw [scanRight, if_pos hc], h1⟩
    · have hm : c ≠ m := fun hc' => hc (hc' ▸ h3)
      obtain ⟨c', hsc, hle⟩ := ih (c + 1) m (by omega) (by omega) h3
      exact ⟨c', by rw [scanRight, if_neg hc]; exact hsc, hle⟩

theorem scanLeft_some (s : List Char) (t : Nat) :
    ∀ fuel c c', scanLeft s t fuel c = some c' →
      c' ≤ c ∧ colT s c' = t ∧ ∀ m, c' < m → m ≤ c → colT s m ≠ t := by
  intro fuel
  induction fuel with
  | zero => intro c c' h; exact Option.noConfusion h
  | succ fuel ih =>
    intro c c' h
    rw [scanLeft] at h
    by_cases hc : colT s c = t
    · rw [if_pos hc] at h
      obtain rfl : c = c' := Option.some.inj h
      exact ⟨le_refl c, hc, fun m h1 h2 => absurd h1 (by omega)⟩
    · rw [if_neg hc] at h
      by_cases hc0 : c = 0
      · rw [if_pos hc0] at h
        exact Option.noConfusion h
      · rw [if_neg hc0] at h
        obtain ⟨h1, h3, h4⟩ := ih (c - 1) c' h
        refine ⟨by omega, h3, ?_⟩
        intro m hm1 hm2
        by_cases hmc : m = c
        · subst hmc; exact hc
        · exact h4 m hm1 (by omega)

theorem scanLeft_mem (s : List Char) (t : Nat) :
    ∀ fuel c m, m ≤ c → c < m + fuel → colT s m = t →
      ∃ c', scanLeft s t fuel c = some c' ∧ m ≤ c' := by
  intro fuel
  induction fuel with
  | zero => intro c m h1 h2 h3; exact absurd h2 (by omega)
  | succ fuel ih =>
    intro c m h1 h2 h3
    by_cases hc : colT s c = t
    · exact ⟨c, by rw [scanLeft, if_pos hc], h1⟩
    · have hm : c ≠ m := fun hc' => hc (hc' ▸ h3)
      have hc0 : c ≠ 0 := by omega
      obtain ⟨c', hsc, hle⟩ := ih (c - 1) m (by omega) (by omega) h3
      exact ⟨c', by rw [scanLeft, if_neg hc, if_neg hc0]; exact hsc, hle⟩

theorem skipRow_some (s : List Char) (r : Nat) :
    ∀ fuel c c', skipRow s r fuel c = some c' →
      c ≤ c' ∧ rowT s c' ≠ r ∧ ∀ m, c ≤ m → m < c' → rowT s m = r := by
  intro fuel
  induction fuel with
  | zero => intro c c' h; exact Option.noConfusion h
  | succ fuel ih =>
    intro c c' h
    rw [skipRow] at h
    by_cases hc : rowT s c = r
    · rw [if_pos hc] at h
      obtain ⟨h1, h2, h3⟩ := ih (c + 1) c' h
      refine ⟨by omega, h2, ?_⟩
      intro m hm1 hm2
      by_cases hmc : m = c
      · subst hmc; exact hc
      · exact h3 m (by omega) hm2
    · rw [if_neg hc] at h
      obtain rfl : c = c' := Option.some.inj h
      exact ⟨le_refl c, hc, fun m h1 h2 => absurd h1 (by omega)⟩

theorem skipRow_mem (s : List Char) (r : Nat) :
    ∀ fuel c m, c ≤ m → m < c + fuel → rowT s m ≠ r →
      ∃ c', skipRow s r fuel c = some c' ∧ c' ≤ m := by
  intro fuel
  induction fuel with
  | zero => intro c m h1 h2 h3; exact absurd h2 (by omega)
  | succ fuel ih =>
    intro c m h1 h2 h3
    by_cases hc : rowT s c = r
    · have hm : c ≠ m := fun hc' => h3 (hc' ▸ hc)
      obtain ⟨c', hsc, hle⟩ := ih (c + 1) m (by omega) (by omega) h3
      exact ⟨c', by rw [skipRow, if_pos hc]; exact hsc, hle⟩
    · exact ⟨c, by rw [skipRow, if_neg hc], h1⟩

/-! ## Truncation is the identity on small buffers -/

theorem offs_components_le (s : List Char) (c : Nat) (hc : c ≤ s.length) :
    (offsNat s c).1 ≤ s.length ∧ (offsNat s c).2 ≤ s.length := by
  obtain ⟨r, h, d, hd, rfl⟩ := offsNat_dec s c hc
  rw [offsNat_char s r h d hd]
  constructor
  · exact le_trans hd (seg_len_le s r h)
  · have := splitNl_length_le s
    show r ≤ s.length
    omega

theorem colT_small (s : List Char) (c : Nat) (hc : c ≤ s.length)
    (hs : s.length < 65536) : colT s c = (offsNat s c).1 := by
  unfold colT
  have := (offs_components_le s c hc).1
  exact Nat.mod_eq_of_lt (by omega)

theorem rowT_small (s : List Char) (c : Nat) (hc : c ≤ s.length)
    (hs : s.length < 65536) : rowT s c = (offsNat s c).2 := by
  unfold rowT
  have := (offs_components_le s c hc).2
  exact Nat.mod_eq_of_lt (by omega)

theorem gco_small (p : Poem) (hc : p.cursor ≤ p.buffer.length)
    (hs : p.buffer.length < 65536) :
    p.get_cursor_offset = offsNat p.buffer p.cursor := by
  unfold Poem.get_cursor_offset
  obtain ⟨h1, h2⟩ := offs_components_le p.buffer p.cursor hc
  rw [Nat.mod_eq_of_lt (by omega), Nat.mod_eq_of_lt (by omega)]

/-! ## Decomposition helpers -/

theorem offs_decomp (s : List Char) (c : Nat) (hc : c ≤ s.length) :
    ∃ r, ∃ h : r < (splitNl s).length, ∃ d, d ≤ ((splitNl s).get ⟨r, h⟩).length ∧
      c = lineStartN s r + d ∧ offsNat s c = (d, r) := by
  obtain ⟨r, h, d, hd, rfl⟩ := offsNat_dec s c hc
  exact ⟨r, h, d, hd, rfl, offsNat_char s r h d hd⟩

theorem lineStartN_succ (s : List Char) (r : Nat) (h : r < (splitNl s).length) :
    lineStartN s (r + 1) = lineStartN s r + ((splitNl s).get ⟨r, h⟩).length + 1 := by
  unfold lineStartN
  rw [take_sum_succ (segLens s) r (by rw [segLens_length]; exact h), segLens_get s r h]
  omega

/-! ## Unfolding equations for the navigation steps -/

theorem cursor_end_line_eq (p : Poem) (d r : Nat) (hgco : p.get_cursor_offset = (d, r)) :
    p.cursor_end_line =
      match (rustLines p.buffer)[r]? with
      | none => none
      | some l =>
        if l.length < d then none
        else some { p with cursor := p.cursor + (l.length - d) } := by
  unfold Poem.cursor_end_line
  rw [hgco]

theorem upStep_eq (p : Poem) (d r : Nat) (hgco : p.get_cursor_offset = (d, r)) :
    upStep p =
      (if r = 0 then some { p with target_line_pos := d, cursor := 0 }
      else
        match (rustLines p.buffer)[r - 1]? with
        | none => none
        | some pl =>
          if d ≤ pl.length then
            if p.cursor = 0 then none
            else
              (scanLeft p.buffer d p.cursor (p.cursor - 1)).map
                fun c => { p with target_line_pos := d, cursor := c }
          else
            if p.cursor < d + 1 then none
            else some { p with target_line_pos := d, cursor := p.cursor - (d + 1) }) := by
  unfold upStep
  rw [hgco]

theorem downStep_eq (p : Poem) (d r : Nat) (hgco : p.get_cursor_offset = (d, r)) :
    downStep p =
      (if (rustLines p.buffer).length % 65536 = 0 then none
      else if r = (rustLines p.buffer).length % 65536 - 1 then
        Poem.cursor_end_line { p with target_line_pos := d }
      else if 65535 ≤ r then none
      else
        match (rustLines p.buffer)[r + 1]? with
        | none => none
        | some nl =>
          if d ≤ nl.length then
            (scanRight p.buffer d (p.buffer.length + 2) (p.cursor + 1)).map
              fun c => { p with target_line_pos := d, cursor := c }
          else
            match skipRow p.buffer r (p.buffer.length + 2) p.cursor with
            | none => none
            | some c =>
              Poem.cursor_end_line { p with target_line_pos := d, cursor := c }) := by
  unfold downStep
  rw [hgco]

/-! ## `insertAt` and `removeAt` -/

theorem insertAt_eq : ∀ (l : List Char) (n : Nat) (c : Char), n ≤ l.length →
    insertAt l n c = some (l.take n ++ c :: l.drop n) := by
  intro l
  induction l with
  | nil =>
    intro n c h
    have : n = 0 := by simpa using h
    subst this
    rfl
  | cons x u ih =>
    intro n c h
    cases n with
    | zero => rfl
    | succ n =>
      have h' : n ≤ u.length := by simpa using h
      rw [insertAt, ih n c h']
      rfl

theorem insertAt_some_length : ∀ (l : List Char) (n : Nat) (c : Char) (b : List Char),
    insertAt l n c = some b → b.length = l.length + 1 := by
  intro l
  induction l with
  | nil =>
    intro n c b h
    cases n with
    | zero =>
      obtain rfl : [c] = b := Option.some.inj h
      rfl
    | succ n => exact Option.noConfusion h
  | cons x u ih =>
    intro n c b h
    cases n with
    | zero =>
      obtain rfl : c :: x :: u = b := Option.some.inj h
      rfl
    | succ n =>
      rw [insertAt] at h
      cases hi : insertAt u n c with
      | none => rw [hi] at h; exact Option.noConfusion h
      | some b' =>
        rw [hi] at h
        obtain rfl : x :: b' = b := Option.some.inj h
        have := ih n c b' hi
        simp only [List.length_cons]
        omega

theorem removeAt_eq : ∀ (l : List Char) (n : Nat), n < l.length →
    removeAt l n = some (l.take n ++ l.drop (n + 1)) := by
  intro l
  induction l with
  | nil => intro n h; simp at h
  | cons x u ih =>
    intro n h
    cases n with
    | zero => rfl
    | succ n =>
      have h' : n < u.length := by simpa using h
      rw [removeAt, ih n h']
      rfl

theorem removeAt_some_length : ∀ (l : List Char) (n : Nat) (b : List Char),
    removeAt l n = some b → b.length + 1 = l.length := by
  intro l
  induction l with
  | nil => intro n b h; exact Option.noConfusion h
  | cons x u ih =>
    intro n b h
    cases n with
    | zero =>
      obtain rfl : u = b := Option.some.inj h
      rfl
    | succ n =>
      rw [removeAt] at h
      cases hi : removeAt u n with
      | none => rw [hi] at h; exact Option.noConfusion h
      | some b' =>
        rw [hi] at h
        obtain rfl : x :: b' = b := Option.some.inj h
        have := ih n b' hi
        simp only [List.length_cons]
        omega

/-! ## Invariant preservation, operation by operation -/

theorem modify_wf (p : Poem) (e : EditOperation) (hw : p.wf) : wfOpt (p.modify e) := by
  cases e with
  | Insert c =>
    simp only [Poem.modify]
    cases hi : insertAt p.buffer p.cursor c with
    | none => exact trivial
    | some b =>
      have hlen := insertAt_some_length p.buffer p.cursor c b hi
      simp only [Option.map_some']
      show p.cursor + 1 ≤ b.length
      unfold Poem.wf at hw
      omega
  | DeleteRight =>
    simp only [Poem.modify]
    by_cases hc : p.cursor = p.buffer.length
    · rw [if_pos hc]
      exact hw
    · rw [if_neg hc]
      cases hr : removeAt p.buffer p.cursor with
      | none => exact trivial
      | some b =>
        have hlen := removeAt_some_length p.buffer p.cursor b hr
        simp only [Option.map_some']
        show p.cursor ≤ b.length
        unfold Poem.wf at hw
        omega
  | DeleteLeft =>
    simp only [Poem.modify]
    by_cases hc : p.cursor = 0
    · rw [if_pos hc]
      exact hw
    · rw [if_neg hc]
      by_cases hc1 : p.cursor - 1 + 1 = p.buffer.length
      · rw [if_pos hc1]
        show p.cursor - 1 ≤ p.buffer.dropLast.length
        rw [List.length_dropLast]
        unfold Poem.wf at hw
        omega
      · rw [if_neg hc1]
        cases hr : removeAt p.buffer (p.cursor - 1) with
        | none => exact trivial
        | some b =>
          have hlen := removeAt_some_length p.buffer (p.cursor - 1) b hr
          simp only [Option.map_some']
          show p.cursor - 1 ≤ b.length
          unfold Poem.wf at hw
          omega
  | Newline =>
    simp only [Poem.modify]
    cases hi : insertAt p.buffer p.cursor '\n' with
    | none => exact trivial
    | some b =>
      have hlen := insertAt_some_length p.buffer p.cursor '\n' b hi
      simp only [Option.map_some']
      show p.cursor ≤ b.length
      unfold Poem.wf at hw
      omega

theorem leftStep_wf (p : Poem) (hw : p.wf) : (leftStep p).wf := by
  unfold leftStep
  by_cases hc : p.cursor = 0
  · rw [if_pos hc]; exact hw
  · rw [if_neg hc]
    show p.cursor - 1 ≤ p.buffer.length
    unfold Poem.wf at hw
    omega

theorem rightStep_wf (p : Poem) (hw : p.wf) : (rightStep p).wf := by
  unfold rightStep
  by_cases hc : p.cursor = p.buffer.length
  · rw [if_pos hc]; exact hw
  · rw [if_neg hc]
    show p.cursor + 1 ≤ p.buffer.length
    unfold Poem.wf at hw
    omega

theorem cursor_start_line_wf (p : Poem) (hw : p.wf) : wfOpt p.cursor_start_line := by
  unfold Poem.cursor_start_line
  cases hs : scanLeft p.buffer 0 (p.cursor + 1) p.cursor with
  | none => exact trivial
  | some c =>
    obtain ⟨h1, _, _⟩ := scanLeft_some p.buffer 0 (p.cursor + 1) p.cursor c hs
    simp only [Option.map_some']
    show c ≤ p.buffer.length
    unfold Poem.wf at hw
    omega

theorem cursor_end_line_wf (p : Poem) (hw : p.wf) (hs : p.buffer.length < 65536) :
    wfOpt p.cursor_end_line := by
  obtain ⟨r, h, d, hd, hc, hoff⟩ := offs_decomp p.buffer p.cursor hw
  have hgco : p.get_cursor_offset = (d, r) := by rw [gco_small p hw hs, hoff]
  rw [cursor_end_line_eq p d r hgco]
  cases hg : (rustLines p.buffer)[r]? with
  | none => exact trivial
  | some l =>
    show wfOpt (if l.length < d then none
      else some { p with cursor := p.cursor + (l.length - d) })
    obtain ⟨h', hb1, hb2⟩ := rustLines_get_bounds p.buffer r l hg
    have hb1' : l.length ≤ ((splitNl p.buffer).get ⟨r, h⟩).length := hb1
    by_cases hld : l.length < d
    · rw [if_pos hld]
      exact trivial
    · rw [if_neg hld]
      show p.cursor + (l.length - d) ≤ p.buffer.length
      have hlsl := lineStart_add_len_le p.buffer r h
      omega

theorem upStep_wf (p : Poem) (hw : p.wf) : wfOpt (upStep p) := by
  obtain ⟨d, r, hgco⟩ : ∃ d r, p.get_cursor_offset = (d, r) :=
    ⟨(p.get_cursor_offset).1, (p.get_cursor_offset).2, by rw [Prod.mk.eta]⟩
  rw [upStep_eq p d r hgco]
  by_cases h0 : r = 0
  · rw [if_pos h0]
    show (0 : Nat) ≤ p.buffer.length
    omega
  · rw [if_neg h0]
    cases hg : (rustLines p.buffer)[r - 1]? with
    | none => exact trivial
    | some pl =>
      show wfOpt (if d ≤ pl.length then
          if p.cursor = 0 then none
          else
            (scanLeft p.buffer d p.cursor (p.cursor - 1)).map
              fun c => { p with target_line_pos := d, cursor := c }
        else
          if p.cursor < d + 1 then none
          else some { p with target_line_pos := d, cursor := p.cursor - (d + 1) })
      by_cases hbr : d ≤ pl.length
      · rw [if_pos hbr]
        by_cases hc0 : p.cursor = 0
        · rw [if_pos hc0]
          exact trivial
        · rw [if_neg hc0]
          cases hsl : scanLeft p.buffer d p.cursor (p.cursor - 1) with
          | none => exact trivial
          | some c =>
            obtain ⟨h1, _, _⟩ := scanLeft_some p.buffer d p.cursor (p.cursor - 1) c hsl
            simp only [Option.map_some']
            show c ≤ p.buffer.length
            unfold Poem.wf at hw
            omega
      · rw [if_neg hbr]
        by_cases hlt : p.cursor < d + 1
        · rw [if_pos hlt]
          exact trivial
        · rw [if_neg hlt]
          show p.cursor - (d + 1) ≤ p.buffer.length
          unfold Poem.wf at hw
          omega

theorem downStep_wf (p : Poem) (hw : p.wf) (hs : p.buffer.length < 65536) :
    wfOpt (downStep p) := by
  obtain ⟨r, h, d, hd, hc, hoff⟩ := offs_decomp p.buffer p.cursor hw
  have hgco : p.get_cursor_offset = (d, r) := by rw [gco_small p hw hs, hoff]
  rw [downStep_eq p d r hgco]
  by_cases hcnt : (rustLines p.buffer).length % 65536 = 0
  · rw [if_pos hcnt]
    exact trivial
  · rw [if_neg hcnt]
    by_cases hlast : r = (rustLines p.buffer).length % 65536 - 1
    · rw [if_pos hlast]
      exact cursor_end_line_wf { p with target_line_pos := d } hw hs
    · rw [if_neg hlast]
      by_cases hbig : 65535 ≤ r
      · rw [if_pos hbig]
        exact trivial
      · rw [if_neg hbig]
        cases hg : (rustLines p.buffer)[r + 1]? with
        | none => exact trivial
        | some nl =>
          show wfOpt (if d ≤ nl.length then
              (scanRight p.buffer d (p.buffer.length + 2) (p.cursor + 1)).map
                fun c => { p with target_line_pos := d, cursor := c }
            else
              match skipRow p.buffer r (p.buffer.length + 2) p.cursor with
              | none => none
              | some c =>
                Poem.cursor_end_line { p with target_line_pos := d, cursor := c })
          obtain ⟨hseg1, hnl1, hnl2⟩ := rustLines_get_bounds p.buffer (r + 1) nl hg
          have hls1 := lineStart_add_len_le p.buffer (r + 1) hseg1
          have hsucc := lineStartN_succ p.buffer r h
          by_cases hbr : d ≤ nl.length
          · rw [if_pos hbr]
            cases hsr : scanRight p.buffer d (p.buffer.length + 2) (p.cursor + 1) with
            | none => exact trivial
            | some c =>
              obtain ⟨hs1, hs2, hs3, hs4⟩ := scanRight_some _ _ _ _ _ hsr
              have hmle : lineStartN p.buffer (r + 1) + d ≤ p.buffer.length := by
                omega
              have hm : colT p.buffer (lineStartN p.buffer (r + 1) + d) = d := by
                have hdle : d ≤ ((splitNl p.buffer).get ⟨r + 1, hseg1⟩).length := by
                  omega
                have hoffm := offsNat_char p.buffer (r + 1) hseg1 d hdle
                rw [colT_small p.buffer _ hmle hs, hoffm]
              have hcur_lt : p.cursor + 1 ≤ lineStartN p.buffer (r + 1) + d := by
                omega
              have hcle : c ≤ lineStartN p.buffer (r + 1) + d := by
                by_contra hcgt
                exact (hs4 _ hcur_lt (by omega)) hm
              simp only [Option.map_some']
              show c ≤ p.buffer.length
              omega
          · rw [if_neg hbr]
            cases hsk : skipRow p.buffer r (p.buffer.length + 2) p.cursor with
            | none => exact trivial
            | some c2 =>
              show wfOpt (Poem.cursor_end_line
                { p with target_line_pos := d, cursor := c2 })
              obtain ⟨hk1, hk2, hk3⟩ := skipRow_some _ _ _ _ _ hsk
              have hmle : lineStartN p.buffer (r + 1) ≤ p.buffer.length := by omega
              have hrow : rowT p.buffer (lineStartN p.buffer (r + 1)) = r + 1 := by
                have hoffm := offsNat_char p.buffer (r + 1) hseg1 0 (by omega)
                rw [Nat.add_zero] at hoffm
                rw [rowT_small p.buffer _ hmle hs, hoffm]
              have hcur_le : p.cursor ≤ lineStartN p.buffer (r + 1) := by omega
              have hc2le : c2 ≤ lineStartN p.buffer (r + 1) := by
                by_contra hgt
                have hqq := hk3 (lineStartN p.buffer (r + 1)) hcur_le (by omega)
                rw [hrow] at hqq
                omega
              exact cursor_end_line_wf { p with target_line_pos := d, cursor := c2 }
                (by show c2 ≤ p.buffer.length; omega) hs

/-! ## Exact positions reported inside and between rows -/

theorem colT_at (s : List Char) (r : Nat) (h : r < (splitNl s).length) (d : Nat)
    (hd : d ≤ ((splitNl s).get ⟨r, h⟩).length) (hs : s.length < 65536) :
    colT s (lineStartN s r + d) = d ∧ rowT s (lineStartN s r + d) = r := by
  have hle : lineStartN s r + d ≤ s.length := by
    have := lineStart_add_len_le s r h
    omega
  have hoffm := offsNat_char s r h d hd
  rw [colT_small s _ hle hs, rowT_small s _ hle hs, hoffm]
  exact ⟨rfl, rfl⟩

theorem colT_ne_between (s : List Char) (r : Nat) (h : r < (splitNl s).length)
    (hseg1 : r + 1 < (splitNl s).length) (d : Nat) (hs : s.length < 65536)
    (m : Nat) (hm1 : lineStartN s r + d < m) (hm2 : m < lineStartN s (r + 1) + d)
    (hdr : d ≤ ((splitNl s).get ⟨r, h⟩).length)
    (hdr1 : d ≤ ((splitNl s).get ⟨r + 1, hseg1⟩).length) :
    colT s m ≠ d := by
  have hsucc := lineStartN_succ s r h
  by_cases hcase : m ≤ lineStartN s r + ((splitNl s).get ⟨r, h⟩).length
  · have hdm : m - lineStartN s r ≤ ((splitNl s).get ⟨r, h⟩).length := by omega
    obtain ⟨hcol, _⟩ := colT_at s r h (m - lineStartN s r) hdm hs
    rw [show lineStartN s r + (m - lineStartN s r) = m by omega] at hcol
    omega
  · have hdm : m - lineStartN s (r + 1) ≤ ((splitNl s).get ⟨r + 1, hseg1⟩).length := by
      omega
    obtain ⟨hcol, _⟩ := colT_at s (r + 1) hseg1 (m - lineStartN s (r + 1)) hdm hs
    rw [show lineStartN s (r + 1) + (m - lineStartN s (r + 1)) = m by omega] at hcol
    omega

theorem lineStartN_ge (s : List Char) (r : Nat) (h : r ≤ (splitNl s).length) :
    r ≤ lineStartN s r := by
  unfold lineStartN
  have hlen : ((segLens s).take r).length = r := by
    rw [List.length_take, segLens_length]
    omega
  have := list_length_le_sum ((segLens s).take r)
    (fun x hx => segLens_pos s x (List.take_subset _ _ hx))
  omega

/-! ## Exact results of the navigation steps -/

theorem down_to_longer (p : Poem) (hw : p.wf) (hs : p.buffer.length < 65536)
    (d r : Nat) (hoff : offsNat p.buffer p.cursor = (d, r))
    (nl : List Char) (hgn : (rustLines p.buffer)[r + 1]? = some nl)
    (hnl : d ≤ nl.length) :
    downStep p = some { p with
      target_line_pos := d,
      cursor := lineStartN p.buffer (r + 1) + d } := by
  obtain ⟨r0, h, d0, hd, hc, hoff0⟩ := offs_decomp p.buffer p.cursor hw
  rw [hoff] at hoff0
  injection hoff0 with h1 h2
  subst h1
  subst h2
  have hgco : p.get_cursor_offset = (d, r) := by rw [gco_small p hw hs, hoff]
  obtain ⟨hseg1, hb1, hb2⟩ := rustLines_get_bounds p.buffer (r + 1) nl hgn
  have hcnt_gt : r + 1 < (rustLines p.buffer).length := by
    by_contra hcon
    rw [List.getElem?_eq_none (by omega)] at hgn
    exact Option.noConfusion hgn
  have hcnt_le : (rustLines p.buffer).length ≤ p.buffer.length := rustLines_length_le _
  have hcntmod : (rustLines p.buffer).length % 65536 = (rustLines p.buffer).length :=
    Nat.mod_eq_of_lt (by omega)
  rw [downStep_eq p d r hgco, hcntmod, if_neg (by omega), if_neg (by omega),
    if_neg (by omega), hgn]
  show (if d ≤ nl.length then
      (scanRight p.buffer d (p.buffer.length + 2) (p.cursor + 1)).map
        fun c => { p with target_line_pos := d, cursor := c }
    else
      match skipRow p.buffer r (p.buffer.length + 2) p.cursor with
      | none => none
      | some c =>
        Poem.cursor_end_line { p with target_line_pos := d, cursor := c }) =
    some { p with target_line_pos := d, cursor := lineStartN p.buffer (r + 1) + d }
  rw [if_pos hnl]
  have hls1 := lineStart_add_len_le p.buffer (r + 1) hseg1
  have hsucc := lineStartN_succ p.buffer r h
  have hdseg : d ≤ ((splitNl p.buffer).get ⟨r + 1, hseg1⟩).length := by omega
  obtain ⟨hcolm, hrowm⟩ := colT_at p.buffer (r + 1) hseg1 d hdseg hs
  have hmgt : p.cursor + 1 ≤ lineStartN p.buffer (r + 1) + d := by omega
  have hmle : lineStartN p.buffer (r + 1) + d ≤ p.buffer.length := by omega
  obtain ⟨c', hsr, hc'le⟩ := scanRight_mem p.buffer d (p.buffer.length + 2)
    (p.cursor + 1) (lineStartN p.buffer (r + 1) + d) hmgt (by omega) hcolm
  obtain ⟨hs1, hs2, hs3, hs4⟩ := scanRight_some _ _ _ _ _ hsr
  have hceq : c' = lineStartN p.buffer (r + 1) + d := by
    by_contra hne
    exact colT_ne_between p.buffer r h hseg1 d hs c' (by omega) (by omega) hd hdseg hs3
  rw [hceq] at hsr
  rw [hsr]
  rfl


theorem down_to_shorter (p : Poem) (hw : p.wf) (hs : p.buffer.length < 65536)
    (d r : Nat) (hoff : offsNat p.buffer p.cursor = (d, r))
    (nl : List Char) (hgn : (rustLines p.buffer)[r + 1]? = some nl)
    (hnl : nl.length < d) :
    downStep p = some { p with
      target_line_pos := d,
      cursor := lineStartN p.buffer (r + 1) + nl.length } := by
  obtain ⟨r0, h, d0, hd, hc, hoff0⟩ := offs_decomp p.buffer p.cursor hw
  rw [hoff] at hoff0
  injection hoff0 with h1 h2
  subst h1
  subst h2
  have hgco : p.get_cursor_offset = (d, r) := by rw [gco_small p hw hs, hoff]
  obtain ⟨hseg1, hb1, hb2⟩ := rustLines_get_bounds p.buffer (r + 1) nl hgn
  have hcnt_gt : r + 1 < (rustLines p.buffer).length := by
    by_contra hcon
    rw [List.getElem?_eq_none (by omega)] at hgn
    exact Option.noConfusion hgn
  have hcnt_le : (rustLines p.buffer).length ≤ p.buffer.length := rustLines_length_le _
  have hcntmod : (rustLines p.buffer).length % 65536 = (rustLines p.buffer).length :=
    Nat.mod_eq_of_lt (by omega)
  rw [downStep_eq p d r hgco, hcntmod, if_neg (by omega), if_neg (by omega),
    if_neg (by omega), hgn]
  show (if d ≤ nl.length then
      (scanRight p.buffer d (p.buffer.length + 2) (p.cursor + 1)).map
        fun c => { p with target_line_pos := d, cursor := c }
    else
      match skipRow p.buffer r (p.buffer.length + 2) p.cursor with
      | none => none
      | some c =>
        Poem.cursor_end_line { p with target_line_pos := d, cursor := c }) =
    some { p with
      target_line_pos := d,
      cursor := lineStartN p.buffer (r + 1) + nl.length }
  rw [if_neg (by omega)]
  have hls1 := lineStart_add_len_le p.buffer (r + 1) hseg1
  have hsucc := lineStartN_succ p.buffer r h
  have hrow1 : rowT p.buffer (lineStartN p.buffer (r + 1)) = r + 1 := by
    have hrt := (colT_at p.buffer (r + 1) hseg1 0 (by omega) hs).2
    rw [Nat.add_zero] at hrt
    exact hrt
  have hrow_r : ∀ m, p.cursor ≤ m → m < lineStartN p.buffer (r + 1) →
      rowT p.buffer m = r := by
    intro m hm1 hm2
    have hdm : m - lineStartN p.buffer r ≤ ((splitNl p.buffer).get ⟨r, h⟩).length := by
      omega
    have hrt := (colT_at p.buffer r h (m - lineStartN p.buffer r) hdm hs).2
    rw [show lineStartN p.buffer r + (m - lineStartN p.buffer r) = m by omega] at hrt
    exact hrt
  have hcur_le : p.cursor ≤ lineStartN p.buffer (r + 1) := by omega
  obtain ⟨c2, hsk, hc2le⟩ := skipRow_mem p.buffer r (p.buffer.length + 2) p.cursor
    (lineStartN p.buffer (r + 1)) hcur_le (by omega) (by rw [hrow1]; omega)
  obtain ⟨hk1, hk2, hk3⟩ := skipRow_some _ _ _ _ _ hsk
  have hc2eq : c2 = lineStartN p.buffer (r + 1) := by
    by_contra hne
    exact hk2 (hrow_r c2 hk1 (by omega))
  rw [hc2eq] at hsk
  rw [hsk]
  show Poem.cursor_end_line
      { p with target_line_pos := d, cursor := lineStartN p.buffer (r + 1) } =
    some { p with
      target_line_pos := d,
      cursor := lineStartN p.buffer (r + 1) + nl.length }
  have hq : ({ p with
      target_line_pos := d,
      cursor := lineStartN p.buffer (r + 1) } : Poem).get_cursor_offset = (0, r + 1) := by
    rw [gco_small ({ p with
        target_line_pos := d,
        cursor := lineStartN p.buffer (r + 1) } : Poem)
      (show lineStartN p.buffer (r + 1) ≤ p.buffer.length by omega)
      (show p.buffer.length < 65536 from hs)]
    show offsNat p.buffer (lineStartN p.buffer (r + 1)) = (0, r + 1)
    have hoffm := offsNat_char p.buffer (r + 1) hseg1 0 (by omega)
    rw [Nat.add_zero] at hoffm
    exact hoffm
  rw [cursor_end_line_eq _ 0 (r + 1) hq]
  show (match (rustLines p.buffer)[r + 1]? with
    | none => none
    | some l =>
      if l.length < 0 then none
      else some { p with
        target_line_pos := d,
        cursor := lineStartN p.buffer (r + 1) + (l.length - 0) }) =
    some { p with
      target_line_pos := d,
      cursor := lineStartN p.buffer (r + 1) + nl.length }
  rw [hgn]
  show (if nl.length < 0 then none
    else some { p with
      target_line_pos := d,
      cursor := lineStartN p.buffer (r + 1) + (nl.length - 0) }) =
    some { p with
      target_line_pos := d,
      cursor := lineStartN p.buffer (r + 1) + nl.length }
  rw [if_neg (Nat.not_lt_zero _)]
  rw [Nat.sub_zero]

theorem up_to_longer (p : Poem) (hw : p.wf) (hs : p.buffer.length < 65536)
    (d r : Nat) (hoff : offsNat p.buffer p.cursor = (d, r)) (hr1 : 1 ≤ r)
    (pl : List Char) (hgp : (rustLines p.buffer)[r - 1]? = some pl)
    (hpl : d ≤ pl.length) :
    upStep p = some { p with
      target_line_pos := d,
      cursor := lineStartN p.buffer (r - 1) + d } := by
  obtain ⟨r', rfl⟩ : ∃ r', r = r' + 1 := ⟨r - 1, by omega⟩
  rw [Nat.add_sub_cancel] at hgp ⊢
  obtain ⟨r0, h, d0, hd, hc, hoff0⟩ := offs_decomp p.buffer p.cursor hw
  rw [hoff] at hoff0
  injection hoff0 with h1 h2
  subst h1
  subst h2
  have hgco : p.get_cursor_offset = (d, r' + 1) := by rw [gco_small p hw hs, hoff]
  obtain ⟨hsegm, hb1, hb2⟩ := rustLines_get_bounds p.buffer r' pl hgp
  have hsucc := lineStartN_succ p.buffer r' hsegm
  have hd_seg : d ≤ ((splitNl p.buffer).get ⟨r', hsegm⟩).length := by omega
  have hge := lineStartN_ge p.buffer (r' + 1) (by omega)
  have hcur1 : 1 ≤ p.cursor := by omega
  rw [upStep_eq p d (r' + 1) hgco, if_neg (by omega), Nat.add_sub_cancel, hgp]
  show (if d ≤ pl.length then
      if p.cursor = 0 then none
      else
        (scanLeft p.buffer d p.cursor (p.cursor - 1)).map
          fun c => { p with target_line_pos := d, cursor := c }
    else
      if p.cursor < d + 1 then none
      else some { p with target_line_pos := d, cursor := p.cursor - (d + 1) }) =
    some { p with
      target_line_pos := d,
      cursor := lineStartN p.buffer r' + d }
  rw [if_pos hpl, if_neg (by omega)]
  obtain ⟨hcolm, hrowm⟩ := colT_at p.buffer r' hsegm d hd_seg hs
  have hmlt : lineStartN p.buffer r' + d ≤ p.cursor - 1 := by omega
  obtain ⟨c', hsl, hc'ge⟩ := scanLeft_mem p.buffer d p.cursor (p.cursor - 1)
    (lineStartN p.buffer r' + d) hmlt (by omega) hcolm
  obtain ⟨hs1, hs2, hs3⟩ := scanLeft_some _ _ _ _ _ hsl
  have hceq : c' = lineStartN p.buffer r' + d := by
    by_contra hne
    exact colT_ne_between p.buffer r' hsegm h d hs c' (by omega) (by omega)
      hd_seg hd hs2
  rw [hceq] at hsl
  rw [hsl]
  rfl

theorem up_to_shorter (p : Poem) (hw : p.wf) (hs : p.buffer.length < 65536)
    (d r : Nat) (hoff : offsNat p.buffer p.cursor = (d, r)) (hr1 : 1 ≤ r)
    (pl : List Char) (hgp : (rustLines p.buffer)[r - 1]? = some pl)
    (hpl : pl.length < d) :
    upStep p = some { p with
      target_line_pos := d,
      cursor := p.cursor - (d + 1) } := by
  obtain ⟨r', rfl⟩ : ∃ r', r = r' + 1 := ⟨r - 1, by omega⟩
  rw [Nat.add_sub_cancel] at hgp
  obtain ⟨r0, h, d0, hd, hc, hoff0⟩ := offs_decomp p.buffer p.cursor hw
  rw [hoff] at hoff0
  injection hoff0 with h1 h2
  subst h1
  subst h2
  have hgco : p.get_cursor_offset = (d, r' + 1) := by rw [gco_small p hw hs, hoff]
  have hge := lineStartN_ge p.buffer (r' + 1) (by omega)
  rw [upStep_eq p d (r' + 1) hgco, if_neg (by omega), Nat.add_sub_cancel, hgp]
  show (if d ≤ pl.length then
      if p.cursor = 0 then none
      else
        (scanLeft p.buffer d p.cursor (p.cursor - 1)).map
          fun c => { p with target_line_pos := d, cursor := c }
    else
      if p.cursor < d + 1 then none
      else some { p with target_line_pos := d, cursor := p.cursor - (d + 1) }) =
    some { p with
      target_line_pos := d,
      cursor := p.cursor - (d + 1) }
  rw [if_neg (by omega), if_neg (by omega)]

/-! ## The first line of a buffer and the save protocol -/

theorem firstLine_decomp : ∀ s : List Char, '\n' ∈ s →
    s = firstLineRaw s ++ '\n' :: restAfterFirst s ∧ '\n' ∉ firstLineRaw s := by
  intro s
  induction s with
  | nil => intro h; simp at h
  | cons x rest ih =>
    intro h
    by_cases hx : x = '\n'
    · subst hx
      have hfr : firstLineRaw ('\n' :: rest) = [] := by
        unfold firstLineRaw
        rw [List.takeWhile_cons, if_neg (by simp)]
      have hra : restAfterFirst ('\n' :: rest) = rest := by
        unfold restAfterFirst
        rw [hfr]
        rfl
      rw [hfr, hra]
      exact ⟨rfl, by simp⟩
    · have hrest : '\n' ∈ rest := by
        rcases List.mem_cons.mp h with h1 | h1
        · exact absurd h1.symm hx
        · exact h1
      obtain ⟨ih1, ih2⟩ := ih hrest
      have hfr : firstLineRaw (x :: rest) = x :: firstLineRaw rest := by
        unfold firstLineRaw
        rw [List.takeWhile_cons, if_pos (by simpa using hx)]
      have hra : restAfterFirst (x :: rest) = restAfterFirst rest := by
        unfold restAfterFirst
        rw [hfr, List.length_cons]
        rfl
      constructor
      · rw [hfr, hra, List.cons_append]
        exact congrArg (List.cons x) ih1
      · rw [hfr]
        intro hmem
        rcases List.mem_cons.mp hmem with h1 | h1
        · exact hx h1.symm
        · exact ih2 h1

theorem splitOnceNl_none : ∀ s : List Char, '\n' ∉ s → splitOnceNl s = none := by
  intro s
  induction s with
  | nil => intro _; rfl
  | cons x rest ih =>
    intro h
    have hx : x ≠ '\n' := fun hc => h (hc ▸ List.mem_cons_self x rest)
    have hrest : '\n' ∉ rest := fun hc => h (List.mem_cons_of_mem x hc)
    rw [splitOnceNl, if_neg hx, ih hrest]
    rfl

theorem splitOnceNl_eq : ∀ s : List Char, '\n' ∈ s →
    splitOnceNl s = some (firstLineRaw s, restAfterFirst s) := by
  intro s
  induction s with
  | nil => intro h; simp at h
  | cons x rest ih =>
    intro h
    by_cases hx : x = '\n'
    · subst hx
      have hfr : firstLineRaw ('\n' :: rest) = [] := by
        unfold firstLineRaw
        rw [List.takeWhile_cons, if_neg (by simp)]
      have hra : restAfterFirst ('\n' :: rest) = rest := by
        unfold restAfterFirst
        rw [hfr]
        rfl
      rw [splitOnceNl, if_pos rfl, hfr, hra]
    · have hrest : '\n' ∈ rest := by
        rcases List.mem_cons.mp h with h1 | h1
        · exact absurd h1.symm hx
        · exact h1
      have hfr : firstLineRaw (x :: rest) = x :: firstLineRaw rest := by
        unfold firstLineRaw
        rw [List.takeWhile_cons, if_pos (by simpa using hx)]
      have hra : restAfterFirst (x :: rest) = restAfterFirst rest := by
        unfold restAfterFirst
        rw [hfr, List.length_cons]
        rfl
      rw [splitOnceNl, if_neg hx, ih hrest, hfr, hra]
      rfl

theorem rustLines_head (s : List Char) (h : '\n' ∈ s) :
    (rustLines s).head? = some (stripCr (firstLineRaw s)) := by
  obtain ⟨hdec, hnot⟩ := firstLine_decomp s h
  rw [show rustLines s = rustLines (firstLineRaw s ++ '\n' :: restAfterFirst s) from
    by rw [← hdec]]
  unfold rustLines
  rw [splitNl_append hnot, linesAux_cons_ne _ _ (splitNl_ne_nil _)]
  rfl

theorem linesAux_singleton (l : List Char) :
    linesAux [l] = if l = [] then [] else [l] := rfl

/-! ## The maximum display line -/

theorem foldl_longest_mem : ∀ (ls : List (List Char)) (l : List Char),
    (ls.foldl (fun acc e => if acc.length < e.length then e else acc) l) ∈ l :: ls := by
  intro ls
  induction ls with
  | nil => intro l; simp [List.foldl_nil]
  | cons e es ih =>
    intro l
    rw [List.foldl_cons]
    by_cases hc : l.length < e.length
    · rw [if_pos hc]
      rcases List.mem_cons.mp (ih e) with h1 | h1
      · rw [h1]
        exact List.mem_cons_of_mem _ (List.mem_cons_self _ _)
      · exact List.mem_cons_of_mem _ (List.mem_cons_of_mem _ h1)
    · rw [if_neg hc]
      rcases List.mem_cons.mp (ih l) with h1 | h1
      · rw [h1]
        exact List.mem_cons_self _ _
      · exact List.mem_cons_of_mem _ (List.mem_cons_of_mem _ h1)

theorem foldl_longest_le : ∀ (ls : List (List Char)) (l : List Char), ∀ x ∈ l :: ls,
    x.length ≤
      (ls.foldl (fun acc e => if acc.length < e.length then e else acc) l).length := by
  intro ls
  induction ls with
  | nil =>
    intro l x hx
    rw [List.foldl_nil]
    rcases List.mem_cons.mp hx with h1 | h1
    · rw [h1]
    · simp at h1
  | cons e es ih =>
    intro l x hx
    rw [List.foldl_cons]
    have hstep : l.length ≤ (if l.length < e.length then e else l).length ∧
        e.length ≤ (if l.length < e.length then e else l).length := by
      by_cases hc : l.length < e.length
      · rw [if_pos hc]
        omega
      · rw [if_neg hc]
        omega
    rcases List.mem_cons.mp hx with h1 | h1
    · calc x.length = l.length := by rw [h1]
        _ ≤ (if l.length < e.length then e else l).length := hstep.1
        _ ≤ _ := ih _ _ (List.mem_cons_self _ _)
    · rcases List.mem_cons.mp h1 with h2 | h2
      · calc x.length = e.length := by rw [h2]
          _ ≤ (if l.length < e.length then e else l).length := hstep.2
          _ ≤ _ := ih _ _ (List.mem_cons_self _ _)
      · exact ih _ _ (List.mem_cons_of_mem _ h2)

theorem foldr_max_le : ∀ (L : List Nat), ∀ x ∈ L, x ≤ L.foldr max 0 := by
  intro L
  induction L with
  | nil => intro x hx; simp at hx
  | cons y ys ih =>
    intro x hx
    rw [List.foldr_cons]
    rcases List.mem_cons.mp hx with h1 | h1
    · rw [h1]
      exact le_max_left _ _
    · exact le_trans (ih x h1) (le_max_right _ _)

theorem foldr_max_mem : ∀ (L : List Nat), L.foldr max 0 ∈ L ∨ L.foldr max 0 = 0 := by
  intro L
  induction L with
  | nil => right; rfl
  | cons y ys ih =>
    rw [List.foldr_cons]
    rcases le_total (ys.foldr max 0) y with hle | hle
    · left
      rw [max_eq_left hle]
      exact List.mem_cons_self _ _
    · rw [max_eq_right hle]
      rcases ih with h1 | h1
      · exact Or.inl (List.mem_cons_of_mem _ h1)
      · exact Or.inr h1

theorem splitNl_eq_single_empty (s : List Char) (h : splitNl s = [[]]) : s = [] := by
  cases s with
  | nil => rfl
  | cons x rest =>
    exfalso
    by_cases hx : x = '\n'
    · subst hx
      rw [splitNl_cons_nl] at h
      have := congrArg List.tail h
      simp at this
      exact splitNl_ne_nil rest this
    · rw [splitNl, splitNlCore_cons_not_nl hx] at h
      have := congrArg List.head? h
      simp at this

theorem linesAux_eq_nil (L : List (List Char)) (h : linesAux L = []) :
    L = [] ∨ L = [[]] := by
  cases L with
  | nil => exact Or.inl rfl
  | cons l ls =>
    cases ls with
    | nil =>
      rw [linesAux_singleton] at h
      by_cases hl : l = []
      · exact Or.inr (by rw [hl])
      · rw [if_neg hl] at h
        exact absurd h (by simp)
    | cons l' ls' =>
      rw [linesAux_cons_ne _ _ (by simp)] at h
      exact absurd h (by simp)

theorem rustLines_ne_nil (s : List Char) (h : s ≠ []) : rustLines s ≠ [] := by
  intro hc
  rcases linesAux_eq_nil (splitNl s) hc with h1 | h1
  · exact splitNl_ne_nil s h1
  · exact h (splitNl_eq_single_empty s h1)

/-! ## The claims -/

/-- C5: `insert_newline` inserts exactly one separator character at the cursor
offset and leaves the cursor offset unchanged; for the buffer `"ab"` with
cursor 1, after `insert_newline` the cursor is reported on row 0, and after
one `Right` step the cursor is reported at row 1, column 0. -/
theorem claim_insert_newline :
    (∀ p : Poem, p.wf →
      p.modify .Newline = some { p with
        buffer := p.buffer.take p.cursor ++ '\n' :: p.buffer.drop p.cursor }) ∧
    (exampleAb.modify .Newline).map Poem.get_cursor_offset = some (1, 0) ∧
    (exampleAb.modify .Newline).map (fun q => (rightStep q).get_cursor_offset) =
      some (0, 1) := by
  refine ⟨?_, by decide, by decide⟩
  intro p hw
  simp only [Poem.modify]
  rw [insertAt_eq p.buffer p.cursor '\n' hw]
  rfl

/-- C5 witness: the general statement applied to the buffer `"ab"`, cursor 1. -/
theorem claim_insert_newline_witness :
    exampleAb.modify .Newline = some { exampleAb with
      buffer := exampleAb.buffer.take exampleAb.cursor ++
        '\n' :: exampleAb.buffer.drop exampleAb.cursor } :=
  claim_insert_newline.1 exampleAb (by decide)

/-- C7: with a name present, save writes the full buffer to that path and
changes nothing; with no name, the buffer's first line becomes the name, the
line and its separator are removed, and the remainder is written there. -/
theorem claim_save (p : Poem) :
    (∀ path, p.name = some path → saveStep p = some (p, (path, p.buffer))) ∧
    (p.name = none → '\n' ∈ p.buffer →
      p.buffer = firstLineRaw p.buffer ++ '\n' :: restAfterFirst p.buffer ∧
      '\n' ∉ firstLineRaw p.buffer ∧
      saveStep p = some
        ({ p with
            name := some (stripCr (firstLineRaw p.buffer)),
            buffer := restAfterFirst p.buffer },
          (stripCr (firstLineRaw p.buffer), restAfterFirst p.buffer))) := by
  constructor
  · intro path hname
    unfold saveStep
    rw [hname]
  · intro hname hmem
    obtain ⟨h1, h2⟩ := firstLine_decomp p.buffer hmem
    refine ⟨h1, h2, ?_⟩
    unfold saveStep
    rw [hname, rustLines_head p.buffer hmem, splitOnceNl_eq p.buffer hmem]

/-- C7 witness: saving the unnamed buffer `"title\nbody text"` writes the
contents `"body text"` to the path `"title"`. -/
theorem claim_save_witness :
    saveStep exampleTitle = some
      ({ exampleTitle with
          name := some ['t', 'i', 't', 'l', 'e'],
          buffer := ['b', 'o', 'd', 'y', ' ', 't', 'e', 'x', 't'] },
        (['t', 'i', 't', 'l', 'e'], ['b', 'o', 'd', 'y', ' ', 't', 'e', 'x', 't'])) :=
  ((claim_save exampleTitle).2 rfl (by decide)).2.2

/-- C8: `delete_backward` is a no-op at cursor 0; otherwise it removes exactly
the character before the old cursor (the last-character truncation path
included), decreasing both the length and the cursor by one. -/
theorem claim_delete_backward (p : Poem) (hw : p.wf) :
    (p.cursor = 0 → p.modify .DeleteLeft = some p) ∧
    (1 ≤ p.cursor →
      p.modify .DeleteLeft = some { p with
        cursor := p.cursor - 1,
        buffer := p.buffer.take (p.cursor - 1) ++ p.buffer.drop p.cursor } ∧
      (p.buffer.take (p.cursor - 1) ++ p.buffer.drop p.cursor).length + 1 =
        p.buffer.length) := by
  constructor
  · intro h0
    simp only [Poem.modify]
    rw [if_pos h0]
  · intro h1
    unfold Poem.wf at hw
    have hlen : (p.buffer.take (p.cursor - 1) ++ p.buffer.drop p.cursor).length + 1 =
        p.buffer.length := by
      rw [List.length_append, List.length_take, List.length_drop]
      omega
    refine ⟨?_, hlen⟩
    simp only [Poem.modify]
    rw [if_neg (by omega)]
    by_cases hend : p.cursor - 1 + 1 = p.buffer.length
    · rw [if_pos hend]
      have hb : p.buffer.dropLast =
          p.buffer.take (p.cursor - 1) ++ p.buffer.drop p.cursor := by
        have hdrop : p.buffer.drop p.cursor = [] :=
          List.drop_eq_nil_of_le (by omega)
        rw [hdrop, List.append_nil, List.dropLast_eq_take]
        congr 1
        omega
      rw [hb]
    · rw [if_neg hend]
      rw [removeAt_eq p.buffer (p.cursor - 1) (by omega)]
      simp only [Option.map_some']
      rw [show p.cursor - 1 + 1 = p.cursor by omega]

/-- C8 witness: deleting backwards in `"ab"` with cursor 1 removes the `'a'`. -/
theorem claim_delete_backward_witness :
    exampleAb.modify .DeleteLeft = some { exampleAb with
      cursor := exampleAb.cursor - 1,
      buffer := exampleAb.buffer.take (exampleAb.cursor - 1) ++
        exampleAb.buffer.drop exampleAb.cursor } :=
  ((claim_delete_backward exampleAb (by decide)).2 (by decide)).1

/-- C9: for an unnamed buffer without a separator the save command aborts on
an `unwrap` and writes nothing; with at least one separator it completes. -/
theorem claim_save_unnamed (p : Poem) (hname : p.name = none) :
    ('\n' ∉ p.buffer → saveStep p = none) ∧
    ('\n' ∈ p.buffer → (saveStep p).isSome = true) := by
  constructor
  · intro hno
    unfold saveStep
    rw [hname]
    by_cases hb : p.buffer = []
    · rw [hb]
      rfl
    · have hlines : rustLines p.buffer = [p.buffer] := by
        unfold rustLines
        rw [splitNl_no_nl hno, linesAux_singleton, if_neg hb]
      rw [hlines, splitOnceNl_none p.buffer hno]
      rfl
  · intro hmem
    unfold saveStep
    rw [hname, rustLines_head p.buffer hmem, splitOnceNl_eq p.buffer hmem]
    rfl

/-- C9 witness: saving the unnamed one-line buffer `"abc"` aborts, while the
unnamed buffer `"a\nb"` saves. -/
theorem claim_save_unnamed_witness :
    saveStep (Poem.from_str ['a', 'b', 'c']) = none ∧
    (saveStep (Poem.from_str ['a', '\n', 'b'])).isSome = true :=
  ⟨(claim_save_unnamed (Poem.from_str ['a', 'b', 'c']) rfl).1 (by decide),
   (claim_save_unnamed (Poem.from_str ['a', '\n', 'b']) rfl).2 (by decide)⟩

theorem frame_buffer_width (input : List (List Char)) (xs : Nat)
    (name : Option (List Char)) :
    (frame_buffer input xs name).2.1 = max xs (get_name name).length + 2 +
      X_PADDING * 2 := rfl

/-- C2 (counterexample): for the one-character buffer `"a"` the frame outer
width is 17 — the `"<no name>"` label floors the width — and not
content width 2 plus 2·3 + 2 = 10. -/
theorem claim_layout_cex :
    (layout ['a']).map (fun fr => fr.2.1) = some 17 ∧
    (make_input ['a']).map (fun mi => mi.2.1) = some 2 ∧
    (17 : Nat) ≠ 2 + 2 * 3 + 2 := by
  refine ⟨by decide, by decide, by decide⟩

/-- C2 (amended): the empty buffer yields exactly one placeholder display row
of width 1 and height 1; for a nonempty buffer the content width is the
maximum display-line length (each buffer line plus one trailing pad space, as
the claim states) and the frame outer width equals
`max(content_width, 9) + 2*3 + 2`, 9 being the length of the `"<no name>"`
label that `draw_screen` passes to `frame_buffer`. -/
theorem claim_layout :
    make_input [] = some ([[' ']], 1, 1) ∧
    ∀ buffer : List Char, buffer ≠ [] →
      (make_input buffer).map (fun mi => mi.2.1) = some (maxDisplayLen buffer) ∧
      (layout buffer).map (fun fr => fr.2.1) =
        some (max (maxDisplayLen buffer) 9 + (2 * 3 + 2)) := by
  refine ⟨rfl, ?_⟩
  intro buffer hne
  obtain ⟨l, ls, hls⟩ := List.exists_cons_of_ne_nil
    (show (rustLines buffer).map (fun e => e ++ [' ']) ≠ [] from by
      intro hcon
      exact rustLines_ne_nil buffer hne (List.map_eq_nil_iff.mp hcon))
  have hmi : make_input buffer = some (l :: ls,
      (ls.foldl (fun acc e => if acc.length < e.length then e else acc) l).length,
      (l :: ls).length) := by
    unfold make_input
    rw [if_neg (by simpa using hne), hls]
  have hmax : (ls.foldl (fun acc e => if acc.length < e.length then e else acc) l).length
      = maxDisplayLen buffer := by
    unfold maxDisplayLen
    rw [hls]
    apply le_antisymm
    · exact foldr_max_le _ _ (List.mem_map_of_mem List.length (foldl_longest_mem ls l))
    · rcases foldr_max_mem ((l :: ls).map List.length) with h1 | h1
      · obtain ⟨x, hx, hxl⟩ := List.mem_map.mp h1
        rw [← hxl]
        exact foldl_longest_le ls l x hx
      · rw [h1]
        omega
  constructor
  · rw [hmi]
    simp only [Option.map_some']
    show some (ls.foldl (fun acc e => if acc.length < e.length then e else acc) l).length
      = some (maxDisplayLen buffer)
    rw [hmax]
  · unfold layout
    rw [hmi]
    simp only [Option.map_some']
    show some (frame_buffer (l :: ls)
      (ls.foldl (fun acc e => if acc.length < e.length then e else acc) l).length
      none).2.1 = some (max (maxDisplayLen buffer) 9 + (2 * 3 + 2))
    rw [frame_buffer_width, hmax]
    show some (max (maxDisplayLen buffer) 9 + 2 + 3 * 2) =
      some (max (maxDisplayLen buffer) 9 + (2 * 3 + 2))
    congr 1

/-- C2 witness: the amended statement applied to the buffer `"a"`. -/
theorem claim_layout_witness :
    (make_input ['a']).map (fun mi => mi.2.1) = some (maxDisplayLen ['a']) ∧
    (layout ['a']).map (fun fr => fr.2.1) =
      some (max (maxDisplayLen ['a']) 9 + (2 * 3 + 2)) :=
  claim_layout.2 ['a'] (by decide)

/-- C1 (amended): for every in-range cursor, `get_cursor_offset` returns the
specified column (the cursor offset minus the offset of the first character
of its row) and row (the number of separators strictly before the cursor),
each reduced modulo 65536 by the `u16` cast in the source. -/
theorem claim_locate_cursor (p : Poem) (hw : p.wf) :
    p.get_cursor_offset =
      (specCol p.buffer p.cursor % 65536, specRow p.buffer p.cursor % 65536) := by
  unfold Poem.get_cursor_offset
  rw [offsNat_spec p.buffer p.cursor hw]

/-- C1 witness: the amended statement applied to `"abcdef\nxy"`, cursor 6. -/
theorem claim_locate_cursor_witness :
    exampleClamp.get_cursor_offset =
      (specCol exampleClamp.buffer exampleClamp.cursor % 65536,
        specRow exampleClamp.buffer exampleClamp.cursor % 65536) :=
  claim_locate_cursor exampleClamp (by decide)

/-- C1 (counterexample): on a single line of 65537 characters with the cursor
at offset 65536, the `u16` cast makes `get_cursor_offset` report column 0
while the specified column is 65536 (and the specified row is 0). -/
theorem claim_locate_cursor_cex :
    bigCol.wf ∧
    bigCol.get_cursor_offset ≠
      (specCol bigCol.buffer bigCol.cursor, specRow bigCol.buffer bigCol.cursor) ∧
    bigCol.get_cursor_offset = (0, 0) ∧
    specCol bigCol.buffer bigCol.cursor = 65536 ∧
    specRow bigCol.buffer bigCol.cursor = 0 := by
  have hnonl : '\n' ∉ List.replicate 65537 'a' := by
    intro hmem
    have h2 := (List.mem_replicate.mp hmem).2
    exact absurd h2 (by decide)
  have hlen : bigCol.buffer.length = 65537 := by
    show (List.replicate 65537 'a').length = 65537
    rw [List.length_replicate]
  have hwf : bigCol.wf := by
    show bigCol.cursor ≤ bigCol.buffer.length
    rw [hlen]
    show (65536 : Nat) ≤ 65537
    norm_num
  have hseg : segLens bigCol.buffer = [65538] := by
    show segLens (List.replicate 65537 'a') = [65538]
    unfold segLens
    rw [splitNl_no_nl hnonl, List.map_cons, List.map_nil, List.length_replicate]
  have hoff : offsNat bigCol.buffer bigCol.cursor = (65536, 0) := by
    show gcoLoop (segLens bigCol.buffer) 65536 0 = (65536, 0)
    rw [hseg, gcoLoop, if_neg (by norm_num)]
  have hgco : bigCol.get_cursor_offset = (0, 0) := by
    unfold Poem.get_cursor_offset
    rw [hoff]
    show ((65536 : Nat) % 65536, (0 : Nat) % 65536) = (0, 0)
    norm_num
  have htw : (List.replicate 65536 'a').takeWhile (fun x => x != '\n') =
      List.replicate 65536 'a' :=
    List.takeWhile_eq_self_iff.mpr (fun x hx => by
      rw [List.eq_of_mem_replicate hx]
      decide)
  have hcol : specCol bigCol.buffer bigCol.cursor = 65536 := by
    rw [specCol_eq_tw]
    show (((List.replicate 65537 'a').take 65536).reverse.takeWhile
      (fun x => x != '\n')).length = 65536
    rw [List.take_replicate, show min 65536 65537 = 65536 from by norm_num,
      List.reverse_replicate, htw, List.length_replicate]
  have hrow : specRow bigCol.buffer bigCol.cursor = 0 := by
    unfold specRow
    show ((List.replicate 65537 'a').take 65536).count '\n' = 0
    rw [List.take_replicate, show min 65536 65537 = 65536 from by norm_num]
    rw [List.count_eq_zero]
    intro hmem
    exact absurd (List.eq_of_mem_replicate hmem) (by decide)
  refine ⟨hwf, ?_, hgco, hcol, hrow⟩
  rw [hgco, hcol, hrow]
  decide

/-- C6 (amended): the cursor invariant `0 ≤ cursor ≤ len(content)` holds for
every freshly created buffer and is preserved by every editing and navigation
operation that completes, for every invariant-satisfying state whose buffer
is shorter than 65536 characters. -/
theorem claim_invariant :
    (∀ text, (Poem.from_str text).wf) ∧
    ∀ p : Poem, p.wf → p.buffer.length < 65536 → preservesInvariant p := by
  constructor
  · intro text
    show (0 : Nat) ≤ text.length
    omega
  · intro p hw hs
    exact ⟨fun e => modify_wf p e hw, leftStep_wf p hw, rightStep_wf p hw,
      upStep_wf p hw, downStep_wf p hw hs, cursor_start_line_wf p hw,
      cursor_end_line_wf p hw hs⟩

/-- C6 witness: every operation preserves the invariant on `"abc\ndef\nghi"`
with the cursor at offset 5. -/
theorem claim_invariant_witness : preservesInvariant exampleRound :=
  claim_invariant.2 exampleRound (by decide) (by decide)

/-- C3 (amended): on `"abcdef\nxy"` with the cursor at the end of line 0, one
Down step lands at column 2 of row 1 (offset 9); in general, on a buffer
shorter than 65536 characters, when the next line is shorter than the
captured target column, Down lands at the end of the next line. -/
theorem claim_down_clamp :
    ((downStep exampleClamp).map Poem.get_cursor_offset = some (2, 1) ∧
      (downStep exampleClamp).map Poem.cursor = some 9) ∧
    ∀ (p : Poem) (d r : Nat) (nl : List Char), p.wf → p.buffer.length < 65536 →
      offsNat p.buffer p.cursor = (d, r) →
      (rustLines p.buffer)[r + 1]? = some nl → nl.length < d →
      (downStep p).map Poem.cursor =
        some (lineStartN p.buffer (r + 1) + nl.length) := by
  refine ⟨⟨by decide, by decide⟩, ?_⟩
  intro p d r nl hw hs hoff hgn hnl
  rw [down_to_shorter p hw hs d r hoff nl hgn hnl]
  rfl

/-- C3 witness: the general clause applied to `"abcdef\nxy"`, cursor 6. -/
theorem claim_down_clamp_witness :
    (downStep exampleClamp).map Poem.cursor =
      some (lineStartN exampleClamp.buffer (0 + 1) + (['x', 'y'] : List Char).length) :=
  claim_down_clamp.2 exampleClamp 6 0 ['x', 'y'] (by decide) (by decide) (by decide)
    (by decide) (by decide)

/-- C4 (amended): for every buffer shorter than 65536 characters and every
interior cursor position whose column is reachable on both the line above
and the line below, a Down step followed by an Up step returns the cursor to
its original offset. -/
theorem claim_round_trip (p : Poem) (hw : p.wf) (hs : p.buffer.length < 65536)
    (d r : Nat) (hoff : offsNat p.buffer p.cursor = (d, r)) (hr1 : 1 ≤ r)
    (pl nl : List Char)
    (hgp : (rustLines p.buffer)[r - 1]? = some pl) (hpl : d ≤ pl.length)
    (hgn : (rustLines p.buffer)[r + 1]? = some nl) (hnl : d ≤ nl.length) :
    ((downStep p).bind upStep).map Poem.cursor = some p.cursor := by
  obtain ⟨r0, h, d0, hd, hc, hoff0⟩ := offs_decomp p.buffer p.cursor hw
  rw [hoff] at hoff0
  injection hoff0 with h1 h2
  subst h1
  subst h2
  obtain ⟨hseg1, hnl1, hnl2⟩ := rustLines_get_bounds p.buffer (r + 1) nl hgn
  have hls1 := lineStart_add_len_le p.buffer (r + 1) hseg1
  have hsucc := lineStartN_succ p.buffer r h
  rw [down_to_longer p hw hs d r hoff nl hgn hnl]
  show (upStep { p with
      target_line_pos := d,
      cursor := lineStartN p.buffer (r + 1) + d }).map Poem.cursor = some p.cursor
  have hqwf : lineStartN p.buffer (r + 1) + d ≤ p.buffer.length := by omega
  have hqoff : offsNat p.buffer (lineStartN p.buffer (r + 1) + d) = (d, r + 1) :=
    offsNat_char p.buffer (r + 1) hseg1 d (by omega)
  have hrlt : r + 1 < (rustLines p.buffer).length := by
    by_contra hcon
    rw [List.getElem?_eq_none (by omega)] at hgn
    exact Option.noConfusion hgn
  obtain ⟨cl, hcl⟩ : ∃ cl, (rustLines p.buffer)[r]? = some cl := by
    rw [List.getElem?_eq_getElem (by omega)]
    exact ⟨_, rfl⟩
  obtain ⟨hsegr, hclb1, hclb2⟩ := rustLines_get_bounds p.buffer r cl hcl
  have hclb1' : cl.length ≤ ((splitNl p.buffer).get ⟨r, h⟩).length := hclb1
  have hclb2' : ((splitNl p.buffer).get ⟨r, h⟩).length ≤ cl.length + 1 := hclb2
  by_cases hcase : d ≤ cl.length
  · have hup := up_to_longer
      { p with target_line_pos := d, cursor := lineStartN p.buffer (r + 1) + d }
      hqwf hs d (r + 1) hqoff (by omega) cl hcl hcase
    rw [hup]
    show some (lineStartN p.buffer (r + 1 - 1) + d) = some p.cursor
    rw [Nat.add_sub_cancel, hc]
  · have hup := up_to_shorter
      { p with target_line_pos := d, cursor := lineStartN p.buffer (r + 1) + d }
      hqwf hs d (r + 1) hqoff (by omega) cl hcl (by omega)
    rw [hup]
    show some (lineStartN p.buffer (r + 1) + d - (d + 1)) = some p.cursor
    congr 1
    omega

/-- C4 witness: the round trip on `"abc\ndef\nghi"` from column 1, row 1. -/
theorem claim_round_trip_witness :
    ((downStep exampleRound).bind upStep).map Poem.cursor =
      some exampleRound.cursor :=
  claim_round_trip exampleRound (by decide) (by decide) 1 1 (by decide)
    (by decide) ['a', 'b', 'c'] ['g', 'h', 'i'] (by decide) (by decide)
    (by decide) (by decide)

/-! ## Trailing-newline buffers (C10) -/

theorem exists_append_singleton_of_getLast : ∀ (s : List Char) (a : Char),
    s.getLast? = some a → ∃ t, s = t ++ [a] := by
  intro s
  induction s with
  | nil => intro a h; exact Option.noConfusion h
  | cons x rest ih =>
    intro a h
    cases rest with
    | nil =>
      have hx : x = a := Option.some.inj h
      exact ⟨[], by simp [hx]⟩
    | cons y t =>
      rw [List.getLast?_cons_cons] at h
      obtain ⟨t', ht⟩ := ih a h
      exact ⟨x :: t', by rw [List.cons_append, ht]⟩

theorem splitNl_length_eq_count : ∀ s : List Char,
    (splitNl s).length = s.count '\n' + 1 := by
  intro s
  induction s with
  | nil => rfl
  | cons x u ih =>
    by_cases hx : x = '\n'
    · subst hx
      rw [splitNl_cons_nl, List.length_cons, ih]
      simp [List.count_cons]
    · have hcore : splitNl (x :: u) = (x :: (splitNlCore u).1) :: (splitNlCore u).2 := by
        rw [splitNl, splitNlCore_cons_not_nl hx]
      rw [hcore, List.length_cons, List.count_cons, if_neg (by simpa using hx)]
      rw [splitNl, List.length_cons] at ih
      omega

theorem splitNl_snoc_nl_getLast : ∀ t : List Char,
    (splitNl (t ++ ['\n'])).getLast? = some [] := by
  intro t
  induction t with
  | nil => rfl
  | cons x u ih =>
    have hform : splitNl (u ++ ['\n']) =
        (splitNlCore (u ++ ['\n'])).1 :: (splitNlCore (u ++ ['\n'])).2 := rfl
    by_cases hx : x = '\n'
    · subst hx
      rw [List.cons_append, splitNl_cons_nl, hform, List.getLast?_cons_cons,
        ← hform, ih]
    · rw [List.cons_append, splitNl, splitNlCore_cons_not_nl hx]
      have hlen : (splitNl (u ++ ['\n'])).length = (u ++ ['\n']).count '\n' + 1 :=
        splitNl_length_eq_count _
      have hmem : '\n' ∈ u ++ ['\n'] := List.mem_append_right _ (by simp)
      have hcnt : 1 ≤ (u ++ ['\n']).count '\n' := by
        by_contra hc
        push_neg at hc
        have h0 : (u ++ ['\n']).count '\n' = 0 := by omega
        exact (List.count_eq_zero.mp h0) hmem
      have hc2 : (splitNlCore (u ++ ['\n'])).2 ≠ [] := by
        intro hnil
        rw [hform, hnil] at hlen
        simp only [List.length_cons, List.length_nil] at hlen
        omega
      obtain ⟨c, cs, hccs⟩ := List.exists_cons_of_ne_nil hc2
      rw [hccs, List.getLast?_cons_cons]
      have hres := ih
      rw [hform, hccs, List.getLast?_cons_cons] at hres
      exact hres

theorem splitNl_snoc_nl_last (t : List Char) :
    (splitNl (t ++ ['\n'])).getLast (splitNl_ne_nil _) = [] := by
  have h1 := splitNl_snoc_nl_getLast t
  rw [List.getLast?_eq_getLast _ (splitNl_ne_nil _)] at h1
  exact Option.some.inj h1

theorem rustLines_length_trailing (t : List Char) :
    (rustLines (t ++ ['\n'])).length = (t ++ ['\n']).count '\n' := by
  rw [rustLines_last_empty _ (splitNl_snoc_nl_last t), List.length_map,
    List.length_dropLast, splitNl_length_eq_count]
  omega

/-- C10 (amended): if the buffer ends with a line separator, the cursor sits
at the end of the buffer, and the buffer is shorter than 2^16 characters,
then the cursor is located on the empty trailing row whose index equals the
number of separators, and both `cursor_to_line_end` and the Down key abort
(the line iterator yields no line at that row index). -/
theorem claim_trailing_newline (p : Poem) (hcur : p.cursor = p.buffer.length)
    (hlast : p.buffer.getLast? = some '\n') (hs : p.buffer.length < 65536) :
    offsNat p.buffer p.cursor = (0, p.buffer.count '\n') ∧
    p.cursor_end_line = none ∧ downStep p = none := by
  obtain ⟨t, ht⟩ := exists_append_singleton_of_getLast p.buffer '\n' hlast
  have hwf : p.cursor ≤ p.buffer.length := le_of_eq hcur
  have hcnt_le : p.buffer.count '\n' ≤ p.buffer.length := List.count_le_length _ _
  have hcnt1 : 1 ≤ p.buffer.count '\n' := by
    have hmem : '\n' ∈ p.buffer := by
      rw [ht]
      exact List.mem_append_right _ (by simp)
    by_contra hc
    push_neg at hc
    have h0 : p.buffer.count '\n' = 0 := by omega
    exact (List.count_eq_zero.mp h0) hmem
  have hoff : offsNat p.buffer p.cursor = (0, p.buffer.count '\n') := by
    rw [offsNat_spec p.buffer p.cursor hwf]
    have hrow : specRow p.buffer p.cursor = p.buffer.count '\n' := by
      unfold specRow
      rw [hcur, List.take_length]
    have hcol : specCol p.buffer p.cursor = 0 := by
      rw [specCol_eq_tw, hcur, List.take_length, ht, List.reverse_append]
      show ((['\n'].reverse ++ t.reverse).takeWhile fun x => x != '\n').length = 0
      rw [show (['\n'].reverse ++ t.reverse) = '\n' :: t.reverse from rfl]
      rw [List.takeWhile_cons, if_neg (by simp)]
      rfl
    rw [hcol, hrow]
  have hgco : p.get_cursor_offset = (0, p.buffer.count '\n') := by
    rw [gco_small p hwf hs, hoff]
  have hlines : (rustLines p.buffer).length = p.buffer.count '\n' := by
    rw [ht]
    exact rustLines_length_trailing t
  refine ⟨hoff, ?_, ?_⟩
  · rw [cursor_end_line_eq p 0 (p.buffer.count '\n') hgco,
      List.getElem?_eq_none (by omega)]
  · rw [downStep_eq p 0 (p.buffer.count '\n') hgco]
    have hmod : (rustLines p.buffer).length % 65536 = (rustLines p.buffer).length :=
      Nat.mod_eq_of_lt (by omega)
    rw [if_neg (by omega), if_neg (by omega)]
    by_cases hbig : 65535 ≤ p.buffer.count '\n'
    · rw [if_pos hbig]
    · rw [if_neg hbig, List.getElem?_eq_none (by omega)]

/-- C10 witness: buffer `"ab\n"` with the cursor at offset 3 (end of buffer). -/
theorem claim_trailing_newline_witness :
    offsNat (Poem.buffer ⟨['a', 'b', '\n'], 3, 0, none⟩)
        (Poem.cursor ⟨['a', 'b', '\n'], 3, 0, none⟩) =
      (0, (Poem.buffer ⟨['a', 'b', '\n'], 3, 0, none⟩).count '\n') ∧
    Poem.cursor_end_line ⟨['a', 'b', '\n'], 3, 0, none⟩ = none ∧
    downStep ⟨['a', 'b', '\n'], 3, 0, none⟩ = none :=
  claim_trailing_newline ⟨['a', 'b', '\n'], 3, 0, none⟩ (by decide) (by decide)
    (by decide)

/-! ## Replicated buffers: helpers for the large counterexamples -/

theorem repJoin_succ (l : List Char) (n : Nat) :
    repJoin l (n + 1) = l ++ repJoin l n := by
  unfold repJoin
  rw [List.replicate_succ, List.flatten_cons]

theorem repJoin_snoc (l : List Char) (n : Nat) :
    repJoin l (n + 1) = repJoin l n ++ l := by
  unfold repJoin
  rw [List.replicate_succ', List.flatten_append]
  simp

theorem repJoin_length (l : List Char) : ∀ n, (repJoin l n).length = n * l.length := by
  intro n
  induction n with
  | zero => rw [Nat.zero_mul]; rfl
  | succ m ih =>
    rw [repJoin_succ, List.length_append, ih, Nat.succ_mul]
    omega

theorem splitNl_repJoin {l : List Char} (h : '\n' ∉ l) :
    ∀ (n : Nat) (t : List Char),
      splitNl (repJoin (l ++ ['\n']) n ++ t) = List.replicate n l ++ splitNl t := by
  intro n
  induction n with
  | zero =>
    intro t
    rw [show repJoin (l ++ ['\n']) 0 = [] from rfl, List.nil_append,
      List.replicate_zero, List.nil_append]
  | succ m ih =>
    intro t
    rw [repJoin_succ, List.append_assoc, List.append_assoc,
      show (['\n'] ++ (repJoin (l ++ ['\n']) m ++ t) : List Char) =
        '\n' :: (repJoin (l ++ ['\n']) m ++ t) from rfl,
      splitNl_append h, ih, List.replicate_succ, List.cons_append]

theorem splitNl_replicate_nl : ∀ (n : Nat) (t : List Char),
    splitNl (List.replicate n '\n' ++ t) =
      List.replicate n ([] : List Char) ++ splitNl t := by
  intro n
  induction n with
  | zero =>
    intro t
    rw [List.replicate_zero, List.replicate_zero, List.nil_append, List.nil_append]
  | succ m ih =>
    intro t
    rw [List.replicate_succ, List.cons_append, splitNl_cons_nl, ih,
      List.replicate_succ, List.cons_append]

theorem gcoLoop_replicate_lt {k : Nat} (hk : 0 < k) :
    ∀ (n : Nat) (L : List Nat) (c i : Nat), c < n * k →
      gcoLoop (List.replicate n k ++ L) c i = (c % k, i + c / k) := by
  intro n
  induction n with
  | zero => intro L c i h; exact absurd h (by omega)
  | succ m ih =>
    intro L c i h
    rw [Nat.succ_mul] at h
    rw [List.replicate_succ, List.cons_append, gcoLoop]
    by_cases hc : k ≤ c
    · rw [if_pos hc, ih L (c - k) (i + 1) (by omega)]
      have hck : c - k + k = c := by omega
      have hmod : (c - k) % k = c % k := by
        conv_rhs => rw [← hck]
        rw [Nat.add_mod_right]
      have hdiv : (c - k) / k + 1 = c / k := by
        conv_rhs => rw [← hck]
        rw [Nat.add_div_right _ hk]
      rw [Prod.mk.injEq]
      exact ⟨hmod, by omega⟩
    · rw [if_neg hc, Prod.mk.injEq]
      exact ⟨(Nat.mod_eq_of_lt (by omega)).symm,
        by rw [Nat.div_eq_of_lt (by omega), Nat.add_zero]⟩

theorem gcoLoop_replicate_ge (k : Nat) :
    ∀ (n : Nat) (L : List Nat) (c i : Nat), n * k ≤ c →
      gcoLoop (List.replicate n k ++ L) c i = gcoLoop L (c - n * k) (i + n) := by
  intro n
  induction n with
  | zero =>
    intro L c i h
    rw [List.replicate_zero, List.nil_append, Nat.zero_mul, Nat.sub_zero,
      Nat.add_zero]
  | succ m ih =>
    intro L c i h
    rw [Nat.succ_mul] at h
    have hkc : k ≤ c := by omega
    rw [List.replicate_succ, List.cons_append, gcoLoop, if_pos hkc,
      ih L (c - k) (i + 1) (by omega),
      show c - k - m * k = c - (m + 1) * k from by rw [Nat.succ_mul]; omega,
      show i + 1 + m = i + (m + 1) from by omega]

theorem scanLeft_step (s : List Char) (t fuel c : Nat) :
    scanLeft s t (fuel + 1) c =
      if colT s c = t then some c
      else if c = 0 then none else scanLeft s t fuel (c - 1) := rfl

theorem skipRow_step (s : List Char) (r fuel c : Nat) :
    skipRow s r (fuel + 1) c =
      if rowT s c = r then skipRow s r fuel (c + 1) else some c := rfl

/-- C10 (counterexample): the buffer of 65536 copies of `"ab\n"` ends with a
separator and has the cursor at its end, yet `cursor_to_line_end` completes
instead of panicking: the truncated row index 0 selects line 0 and the cursor
is pushed to 196610. -/
theorem claim_trailing_newline_cex :
    bigEnd.buffer.getLast? = some '\n' ∧
    bigEnd.cursor = bigEnd.buffer.length ∧
    (Poem.cursor_end_line bigEnd).map Poem.cursor = some 196610 ∧
    (Poem.cursor_end_line bigEnd).isSome = true := by
  have hsplit : splitNl bigEnd.buffer =
      List.replicate 65536 ['a', 'b'] ++ [[]] := by
    have h := splitNl_repJoin (l := ['a', 'b']) (by decide) 65536 []
    rw [List.append_nil] at h
    exact h
  have hlen : bigEnd.buffer.length = 196608 := by
    show (repJoin ['a', 'b', '\n'] 65536).length = 196608
    rw [repJoin_length]
    norm_num
  have hlast : bigEnd.buffer.getLast? = some '\n' := by
    show (repJoin ['a', 'b', '\n'] 65536).getLast? = some '\n'
    rw [show (65536 : Nat) = 65535 + 1 from rfl, repJoin_snoc]
    show ((repJoin ['a', 'b', '\n'] 65535 ++ (['a', 'b'] ++ ['\n'])) :
      List Char).getLast? = some '\n'
    rw [← List.append_assoc]
    exact List.getLast?_concat _
  have hseg : segLens bigEnd.buffer = List.replicate 65536 3 ++ [1] := by
    unfold segLens
    rw [hsplit, List.map_append, List.map_replicate]
    rfl
  have hoff : offsNat bigEnd.buffer 196608 = (0, 65536) := by
    unfold offsNat
    rw [hseg, gcoLoop_replicate_ge 3 65536 [1] 196608 0 (by norm_num),
      show (196608 : Nat) - 65536 * 3 = 0 from by norm_num,
      show (0 : Nat) + 65536 = 65536 from rfl, gcoLoop,
      if_neg (by norm_num)]
  have hgco : bigEnd.get_cursor_offset = (0, 0) := by
    unfold Poem.get_cursor_offset
    rw [show bigEnd.cursor = 196608 from rfl, hoff]
    norm_num
  have hlastnil : (splitNl bigEnd.buffer).getLast (splitNl_ne_nil _) = [] := by
    have h1 : (splitNl bigEnd.buffer).getLast? = some ([] : List Char) := by
      rw [hsplit]
      exact List.getLast?_concat _
    rw [List.getLast?_eq_getLast _ (splitNl_ne_nil _)] at h1
    exact Option.some.inj h1
  have hlines : rustLines bigEnd.buffer = List.replicate 65536 ['a', 'b'] := by
    rw [rustLines_last_empty _ hlastnil, hsplit, List.dropLast_concat,
      List.map_replicate]
    rfl
  have hline0 : (rustLines bigEnd.buffer)[(0 : Nat)]? = some ['a', 'b'] := by
    rw [hlines, List.getElem?_eq_getElem
      (by rw [List.length_replicate]; norm_num), List.getElem_replicate]
  have hcel : Poem.cursor_end_line bigEnd =
      some (Poem.mk bigEnd.buffer 196610 0 none) := by
    rw [cursor_end_line_eq bigEnd 0 0 hgco, hline0]
    show (if (['a', 'b'] : List Char).length < 0 then none
        else some { bigEnd with
          cursor := bigEnd.cursor + ((['a', 'b'] : List Char).length - 0) }) =
      some (Poem.mk bigEnd.buffer 196610 0 none)
    rw [if_neg (by decide)]
    rfl
  refine ⟨hlast, ?_, ?_, ?_⟩
  · rw [hlen]
    rfl
  · rw [hcel]
    rfl
  · rw [hcel]
    rfl

/-! ### Branch lemmas for the navigation steps (stated on a symbolic state) -/

theorem cursor_end_line_some (p : Poem) (d r : Nat)
    (hgco : p.get_cursor_offset = (d, r)) (l : List Char)
    (hl : (rustLines p.buffer)[r]? = some l) (hld : ¬ l.length < d) :
    p.cursor_end_line = some { p with cursor := p.cursor + (l.length - d) } := by
  rw [cursor_end_line_eq p d r hgco, hl]
  show (if l.length < d then none
    else some { p with cursor := p.cursor + (l.length - d) }) =
    some { p with cursor := p.cursor + (l.length - d) }
  rw [if_neg hld]

theorem downStep_last_row (p : Poem) (d r : Nat)
    (hgco : p.get_cursor_offset = (d, r))
    (hcnt0 : ¬ (rustLines p.buffer).length % 65536 = 0)
    (hr : r = (rustLines p.buffer).length % 65536 - 1) :
    downStep p = Poem.cursor_end_line { p with target_line_pos := d } := by
  rw [downStep_eq p d r hgco, if_neg hcnt0, if_pos hr]

theorem downStep_skip_branch (p : Poem) (d r : Nat)
    (hgco : p.get_cursor_offset = (d, r))
    (hcnt0 : ¬ (rustLines p.buffer).length % 65536 = 0)
    (hr1 : ¬ r = (rustLines p.buffer).length % 65536 - 1)
    (hr2 : ¬ 65535 ≤ r) (nl : List Char)
    (hnl : (rustLines p.buffer)[r + 1]? = some nl) (hd : ¬ d ≤ nl.length)
    (c : Nat)
    (hskip : skipRow p.buffer r (p.buffer.length + 2) p.cursor = some c) :
    downStep p =
      Poem.cursor_end_line { p with target_line_pos := d, cursor := c } := by
  rw [downStep_eq p d r hgco, if_neg hcnt0, if_neg hr1, if_neg hr2, hnl]
  show (if d ≤ nl.length then
      (scanRight p.buffer d (p.buffer.length + 2) (p.cursor + 1)).map
        fun c => { p with target_line_pos := d, cursor := c }
    else
      match skipRow p.buffer r (p.buffer.length + 2) p.cursor with
      | none => none
      | some c =>
        Poem.cursor_end_line { p with target_line_pos := d, cursor := c }) =
    Poem.cursor_end_line { p with target_line_pos := d, cursor := c }
  rw [if_neg hd, hskip]

theorem upStep_scan (p : Poem) (d r : Nat)
    (hgco : p.get_cursor_offset = (d, r)) (hr : ¬ r = 0) (pl : List Char)
    (hpl : (rustLines p.buffer)[r - 1]? = some pl) (hd : d ≤ pl.length)
    (hc : ¬ p.cursor = 0) :
    upStep p = (scanLeft p.buffer d p.cursor (p.cursor - 1)).map
      fun c => { p with target_line_pos := d, cursor := c } := by
  rw [upStep_eq p d r hgco, if_neg hr, hpl]
  show (if d ≤ pl.length then
      if p.cursor = 0 then none
      else (scanLeft p.buffer d p.cursor (p.cursor - 1)).map
        fun c => { p with target_line_pos := d, cursor := c }
    else
      if p.cursor < d + 1 then none
      else some { p with target_line_pos := d, cursor := p.cursor - (d + 1) }) =
    (scanLeft p.buffer d p.cursor (p.cursor - 1)).map
      fun c => { p with target_line_pos := d, cursor := c }
  rw [if_pos hd, if_neg hc]

/-- C4 (counterexample): on 65538 lines of `"ab"` with the cursor at column 1
of row 1, both adjacent lines reach column 1, yet Down followed by Up lands at
offset 2 instead of the original offset 4: the truncated line count makes the
Down arm treat row 1 as the last row. -/
theorem claim_round_trip_cex :
    bigRound.wf ∧
    offsNat bigRound.buffer bigRound.cursor = (1, 1) ∧
    (rustLines bigRound.buffer)[(0 : Nat)]? = some ['a', 'b'] ∧
    (rustLines bigRound.buffer)[(2 : Nat)]? = some ['a', 'b'] ∧
    1 ≤ (['a', 'b'] : List Char).length ∧
    ((downStep bigRound).bind upStep).map Poem.cursor = some 2 ∧
    bigRound.cursor = 4 ∧ (2 : Nat) ≠ 4 := by
  have hsplit : splitNl bigRound.buffer =
      List.replicate 65537 ['a', 'b'] ++ [['a', 'b']] := by
    have h := splitNl_repJoin (l := ['a', 'b']) (by decide) 65537 ['a', 'b']
    rw [show splitNl ['a', 'b'] = [['a', 'b']] from rfl] at h
    exact h
  have hlen : bigRound.buffer.length = 196613 := by
    show (repJoin ['a', 'b', '\n'] 65537 ++ ['a', 'b']).length = 196613
    rw [List.length_append, repJoin_length]
    norm_num
  have hwf : bigRound.wf := by
    show bigRound.cursor ≤ bigRound.buffer.length
    rw [hlen]
    show (4 : Nat) ≤ 196613
    norm_num
  have hseg : segLens bigRound.buffer = List.replicate 65537 3 ++ [3] := by
    unfold segLens
    rw [hsplit, List.map_append, List.map_replicate]
    rfl
  have hoffs : ∀ c : Nat, c < 6 → offsNat bigRound.buffer c = (c % 3, c / 3) := by
    intro c hc
    unfold offsNat
    rw [hseg, gcoLoop_replicate_lt (by norm_num) 65537 [3] c 0 (by omega),
      Nat.zero_add]
  have hoff4 : offsNat bigRound.buffer 4 = (1, 1) := by
    rw [hoffs 4 (by norm_num)]
  have hoff5 : offsNat bigRound.buffer 5 = (2, 1) := by
    rw [hoffs 5 (by norm_num)]
  have hgco : bigRound.get_cursor_offset = (1, 1) := by
    unfold Poem.get_cursor_offset
    rw [show bigRound.cursor = 4 from rfl, hoff4]
    decide
  have hlastne : (splitNl bigRound.buffer).getLast (splitNl_ne_nil _) =
      ['a', 'b'] := by
    have h1 : (splitNl bigRound.buffer).getLast? = some ['a', 'b'] := by
      rw [hsplit]
      exact List.getLast?_concat _
    rw [List.getLast?_eq_getLast _ (splitNl_ne_nil _)] at h1
    exact Option.some.inj h1
  have hlines : rustLines bigRound.buffer =
      List.replicate 65537 ['a', 'b'] ++ [['a', 'b']] := by
    rw [rustLines_last_ne _ (by rw [hlastne]; exact (by decide)), hlastne,
      hsplit, List.dropLast_concat, List.map_replicate]
    rfl
  have hcnt : (rustLines bigRound.buffer).length = 65538 := by
    rw [hlines, List.length_append, List.length_replicate]
    norm_num
  have hlinesAt : ∀ j : Nat, j < 65537 →
      (rustLines bigRound.buffer)[j]? = some ['a', 'b'] := by
    intro j hj
    rw [hlines, List.getElem?_append_left (by rw [List.length_replicate]; omega),
      List.getElem?_eq_getElem (by rw [List.length_replicate]; omega),
      List.getElem_replicate]
  have hcolT : ∀ c : Nat, c < 6 → colT bigRound.buffer c = c % 3 := by
    intro c hc
    unfold colT
    rw [hoffs c hc]
    exact Nat.mod_eq_of_lt (by omega)
  have hscan : scanLeft bigRound.buffer 2 5 4 = some 2 := by
    rw [show (5 : Nat) = 4 + 1 from rfl, scanLeft_step,
      hcolT 4 (by norm_num), if_neg (by decide), if_neg (by decide),
      show (4 : Nat) - 1 = 3 from rfl, show (4 : Nat) = 3 + 1 from rfl,
      scanLeft_step, hcolT 3 (by norm_num), if_neg (by decide),
      if_neg (by decide), show (3 : Nat) - 1 = 2 from rfl,
      show (3 : Nat) = 2 + 1 from rfl, scanLeft_step, hcolT 2 (by norm_num),
      if_pos (by decide)]
  have hgco1 : (Poem.mk bigRound.buffer bigRound.cursor 1 bigRound.name :
      Poem).get_cursor_offset = (1, 1) := hgco
  have hds : downStep bigRound = some (Poem.mk bigRound.buffer 5 1 none) := by
    rw [downStep_last_row bigRound 1 1 hgco (by rw [hcnt]; norm_num)
      (by rw [hcnt]),
      cursor_end_line_some _ 1 1 hgco1 ['a', 'b']
        (hlinesAt 1 (by norm_num)) (by decide)]
    rfl
  have hgcoq : (Poem.mk bigRound.buffer 5 1 none : Poem).get_cursor_offset =
      (2, 1) := by
    unfold Poem.get_cursor_offset
    show ((offsNat bigRound.buffer 5).1 % 65536,
      (offsNat bigRound.buffer 5).2 % 65536) = (2, 1)
    rw [hoff5]
    decide
  have hup : upStep (Poem.mk bigRound.buffer 5 1 none) =
      some (Poem.mk bigRound.buffer 2 2 none) := by
    rw [upStep_scan _ 2 1 hgcoq (by decide) ['a', 'b']
      (hlinesAt 0 (by norm_num)) (by decide) (by decide)]
    show (scanLeft bigRound.buffer 2 5 4).map
        (fun c => Poem.mk bigRound.buffer c 2 none) =
      some (Poem.mk bigRound.buffer 2 2 none)
    rw [hscan]
    rfl
  refine ⟨hwf, by rw [show bigRound.cursor = 4 from rfl, hoff4],
    hlinesAt 0 (by norm_num), hlinesAt 2 (by norm_num), by decide, ?_, rfl,
    by decide⟩
  rw [hds, Option.some_bind, hup]
  rfl

/-- C3 (counterexample): on 65538 lines — `"ab"`, `"ab"`, `"a"`, then 65535
more `"ab"` lines — with the cursor at the end of row 1, the next line `"a"`
is shorter than the captured column 2, yet Down leaves the cursor at offset 5
instead of jumping to the end of the next line (offset 7): the truncated line
count makes the Down arm treat row 1 as the last row. -/
theorem claim_down_clamp_cex :
    bigClamp.wf ∧
    offsNat bigClamp.buffer bigClamp.cursor = (2, 1) ∧
    (rustLines bigClamp.buffer)[(2 : Nat)]? = some ['a'] ∧
    (['a'] : List Char).length < 2 ∧
    (downStep bigClamp).map Poem.cursor = some 5 ∧
    lineStartN bigClamp.buffer 2 + (['a'] : List Char).length = 7 ∧
    (5 : Nat) ≠ 7 := by
  have hsplitN : splitNl bigClamp.buffer =
      ['a', 'b'] :: ['a', 'b'] :: ['a'] ::
        (List.replicate 65534 ['a', 'b'] ++ [['a', 'b']]) := by
    have h3 : splitNl (repJoin ['a', 'b', '\n'] 65534 ++ ['a', 'b']) =
        List.replicate 65534 ['a', 'b'] ++ [['a', 'b']] := by
      have h := splitNl_repJoin (l := ['a', 'b']) (by decide) 65534 ['a', 'b']
      rw [show splitNl ['a', 'b'] = [['a', 'b']] from rfl] at h
      exact h
    show splitNl (['a', 'b'] ++ '\n' :: ('a' :: 'b' :: '\n' :: 'a' :: '\n' ::
      (repJoin ['a', 'b', '\n'] 65534 ++ ['a', 'b']))) = _
    rw [splitNl_append (by decide)]
    show ['a', 'b'] :: splitNl (['a', 'b'] ++ '\n' :: ('a' :: '\n' ::
      (repJoin ['a', 'b', '\n'] 65534 ++ ['a', 'b']))) = _
    rw [splitNl_append (by decide)]
    show ['a', 'b'] :: ['a', 'b'] :: splitNl (['a'] ++ '\n' ::
      (repJoin ['a', 'b', '\n'] 65534 ++ ['a', 'b'])) = _
    rw [splitNl_append (by decide), h3]
  have hsplitC : splitNl bigClamp.buffer =
      (['a', 'b'] :: ['a', 'b'] :: ['a'] :: List.replicate 65534 ['a', 'b']) ++
        [['a', 'b']] := by
    rw [hsplitN]
    rfl
  have hseg : segLens bigClamp.buffer =
      3 :: 3 :: 2 :: (List.replicate 65534 3 ++ [3]) := by
    unfold segLens
    rw [hsplitN, List.map_cons, List.map_cons, List.map_cons, List.map_append,
      List.map_replicate]
    rfl
  have hlen : bigClamp.buffer.length = 196612 := by
    show ('a' :: 'b' :: '\n' :: 'a' :: 'b' :: '\n' :: 'a' :: '\n' ::
      (repJoin ['a', 'b', '\n'] 65534 ++ ['a', 'b'])).length = 196612
    rw [List.length_cons, List.length_cons, List.length_cons, List.length_cons,
      List.length_cons, List.length_cons, List.length_cons, List.length_cons,
      List.length_append, repJoin_length]
    norm_num
  have hwf : bigClamp.wf := by
    show bigClamp.cursor ≤ bigClamp.buffer.length
    rw [hlen]
    show (5 : Nat) ≤ 196612
    norm_num
  have hoff5 : offsNat bigClamp.buffer 5 = (2, 1) := by
    unfold offsNat
    rw [hseg, gcoLoop, if_pos (by norm_num),
      show (5 : Nat) - 3 = 2 from rfl, show (0 : Nat) + 1 = 1 from rfl,
      gcoLoop, if_neg (by norm_num)]
  have hgco : bigClamp.get_cursor_offset = (2, 1) := by
    unfold Poem.get_cursor_offset
    rw [show bigClamp.cursor = 5 from rfl, hoff5]
    decide
  have hlastne : (splitNl bigClamp.buffer).getLast (splitNl_ne_nil _) =
      ['a', 'b'] := by
    have h1 : (splitNl bigClamp.buffer).getLast? = some ['a', 'b'] := by
      rw [hsplitC]
      exact List.getLast?_concat _
    rw [List.getLast?_eq_getLast _ (splitNl_ne_nil _)] at h1
    exact Option.some.inj h1
  have hlines : rustLines bigClamp.buffer =
      (['a', 'b'] :: ['a', 'b'] :: ['a'] :: List.replicate 65534 ['a', 'b']) ++
        [['a', 'b']] := by
    rw [rustLines_last_ne _ (by rw [hlastne]; exact (by decide)), hlastne,
      hsplitC, List.dropLast_concat, List.map_cons, List.map_cons,
      List.map_cons, List.map_replicate]
    rfl
  have hcnt : (rustLines bigClamp.buffer).length = 65538 := by
    rw [hlines, List.length_append, List.length_cons, List.length_cons,
      List.length_cons, List.length_replicate]
    norm_num
  have hline1 : (rustLines bigClamp.buffer)[(1 : Nat)]? = some ['a', 'b'] := by
    rw [hlines, List.getElem?_append_left (by
      rw [List.length_cons, List.length_cons, List.length_cons,
        List.length_replicate]
      norm_num),
      show (1 : Nat) = 0 + 1 from rfl, List.getElem?_cons_succ,
      List.getElem?_cons_zero]
  have hline2 : (rustLines bigClamp.buffer)[(2 : Nat)]? = some ['a'] := by
    rw [hlines, List.getElem?_append_left (by
      rw [List.length_cons, List.length_cons, List.length_cons,
        List.length_replicate]
      norm_num),
      show (2 : Nat) = 1 + 1 from rfl, List.getElem?_cons_succ,
      show (1 : Nat) = 0 + 1 from rfl, List.getElem?_cons_succ,
      List.getElem?_cons_zero]
  have hgco1 : (Poem.mk bigClamp.buffer bigClamp.cursor 2 bigClamp.name :
      Poem).get_cursor_offset = (2, 1) := hgco
  have hds : downStep bigClamp = some (Poem.mk bigClamp.buffer 5 2 none) := by
    rw [downStep_last_row bigClamp 2 1 hgco (by rw [hcnt]; norm_num)
      (by rw [hcnt]),
      cursor_end_line_some _ 2 1 hgco1 ['a', 'b'] hline1 (by decide)]
    rfl
  have hls : lineStartN bigClamp.buffer 2 = 6 := by
    unfold lineStartN
    rw [hseg]
    rfl
  refine ⟨hwf, by rw [show bigClamp.cursor = 5 from rfl, hoff5], hline2,
    by decide, ?_, ?_, by decide⟩
  · rw [hds]
    rfl
  · rw [hls]
    decide

theorem gco_mk (A : List Char) (c t : Nat) (n : Option (List Char)) :
    (Poem.mk A c t n).get_cursor_offset =
      ((offsNat A c).1 % 65536, (offsNat A c).2 % 65536) := rfl

theorem rowT_of_offs (s : List Char) (c x y r : Nat)
    (hoff : offsNat s c = (x, y)) (hr : y % 65536 = r) :
    rowT s c = r := by
  unfold rowT
  rw [hoff, hr]

theorem not_preserves_of_down (p : Poem) (h : ¬ wfOpt (downStep p)) :
    ¬ preservesInvariant p := fun hpre => h hpre.2.2.2.2.1

theorem wfOpt_mk (A : List Char) (c t : Nat) (n : Option (List Char)) :
    wfOpt (some (Poem.mk A c t n)) ↔ c ≤ A.length := Iff.rfl

/-- C6 (counterexample): on the invariant-satisfying state whose 65538 lines
are an empty line, `"aa"`, 65534 empty lines, `"aaa"` and `"z"` with the
cursor at the end of row 65536, the Down key completes but moves the cursor
to 65544, one past the buffer length 65543: the truncated row index 0 makes
the skip loop land on the next row start while `cursor_to_line_end` then
reads the length of line 1 instead of the current line. -/
theorem claim_invariant_cex :
    bigDown.wf ∧
    (downStep bigDown).map Poem.cursor = some 65544 ∧
    bigDown.buffer.length = 65543 ∧
    ¬ wfOpt (downStep bigDown) ∧
    ¬ preservesInvariant bigDown := by
  have hsplitN : splitNl bigDown.buffer =
      ([] : List Char) :: ['a', 'a'] ::
        (List.replicate 65534 ([] : List Char) ++ [['a', 'a', 'a'], ['z']]) := by
    show splitNl ('\n' :: ('a' :: 'a' :: '\n' ::
      (List.replicate 65534 '\n' ++ ['a', 'a', 'a', '\n', 'z']))) = _
    rw [splitNl_cons_nl]
    show (([] : List Char)) :: splitNl (['a', 'a'] ++ '\n' ::
      (List.replicate 65534 '\n' ++ ['a', 'a', 'a', '\n', 'z'])) = _
    rw [splitNl_append (by decide), splitNl_replicate_nl,
      show splitNl ['a', 'a', 'a', '\n', 'z'] = [['a', 'a', 'a'], ['z']]
        from rfl]
  have hsplitC : splitNl bigDown.buffer =
      (([] : List Char) :: ['a', 'a'] ::
        (List.replicate 65534 ([] : List Char) ++ [['a', 'a', 'a']])) ++
        [['z']] := by
    rw [hsplitN,
      show ([['a', 'a', 'a'], ['z']] : List (List Char)) =
        [['a', 'a', 'a']] ++ [['z']] from rfl,
      ← List.append_assoc]
    rfl
  have hseg : segLens bigDown.buffer =
      1 :: 3 :: (List.replicate 65534 1 ++ [4, 2]) := by
    unfold segLens
    rw [hsplitN, List.map_cons, List.map_cons, List.map_append,
      List.map_replicate]
    rfl
  have hlen : bigDown.buffer.length = 65543 := by
    show ('\n' :: 'a' :: 'a' :: '\n' ::
      (List.replicate 65534 '\n' ++ ['a', 'a', 'a', '\n', 'z'])).length = 65543
    rw [List.length_cons, List.length_cons, List.length_cons, List.length_cons,
      List.length_append, List.length_replicate]
    norm_num
  have hwf : bigDown.wf := by
    show bigDown.cursor ≤ bigDown.buffer.length
    rw [hlen]
    show (65541 : Nat) ≤ 65543
    norm_num
  have hoff41 : offsNat bigDown.buffer 65541 = (3, 65536) := by
    unfold offsNat
    rw [hseg, gcoLoop, if_pos (by norm_num),
      show (65541 : Nat) - 1 = 65540 from rfl,
      show (0 : Nat) + 1 = 1 from rfl,
      gcoLoop, if_pos (by norm_num),
      show (65540 : Nat) - 3 = 65537 from rfl,
      show (1 : Nat) + 1 = 2 from rfl,
      gcoLoop_replicate_ge 1 65534 [4, 2] 65537 2 (by norm_num),
      show (65537 : Nat) - 65534 * 1 = 3 from by norm_num,
      show (2 : Nat) + 65534 = 65536 from rfl,
      gcoLoop, if_neg (by norm_num)]
  have hoff42 : offsNat bigDown.buffer 65542 = (0, 65537) := by
    unfold offsNat
    rw [hseg, gcoLoop, if_pos (by norm_num),
      show (65542 : Nat) - 1 = 65541 from rfl,
      show (0 : Nat) + 1 = 1 from rfl,
      gcoLoop, if_pos (by norm_num),
      show (65541 : Nat) - 3 = 65538 from rfl,
      show (1 : Nat) + 1 = 2 from rfl,
      gcoLoop_replicate_ge 1 65534 [4, 2] 65538 2 (by norm_num),
      show (65538 : Nat) - 65534 * 1 = 4 from by norm_num,
      show (2 : Nat) + 65534 = 65536 from rfl,
      gcoLoop, if_pos (by norm_num),
      show (4 : Nat) - 4 = 0 from rfl,
      show (65536 : Nat) + 1 = 65537 from rfl,
      gcoLoop, if_neg (by norm_num)]
  have hgco : bigDown.get_cursor_offset = (3, 0) := by
    unfold Poem.get_cursor_offset
    rw [show bigDown.cursor = 65541 from rfl, hoff41]
    decide
  have hrow41 : rowT bigDown.buffer 65541 = 0 :=
    rowT_of_offs _ 65541 3 65536 0 hoff41 (by norm_num)
  have hrow42 : rowT bigDown.buffer 65542 = 1 :=
    rowT_of_offs _ 65542 0 65537 1 hoff42 (by norm_num)
  have hlastne : (splitNl bigDown.buffer).getLast (splitNl_ne_nil _) =
      ['z'] := by
    have h1 : (splitNl bigDown.buffer).getLast? = some ['z'] := by
      rw [hsplitC]
      exact List.getLast?_concat _
    rw [List.getLast?_eq_getLast _ (splitNl_ne_nil _)] at h1
    exact Option.some.inj h1
  have hlines : rustLines bigDown.buffer =
      (([] : List Char) :: ['a', 'a'] ::
        (List.replicate 65534 ([] : List Char) ++ [['a', 'a', 'a']])) ++
        [['z']] := by
    rw [rustLines_last_ne _ (by rw [hlastne]; exact (by decide)), hlastne,
      hsplitC, List.dropLast_concat, List.map_cons, List.map_cons,
      List.map_append, List.map_replicate]
    rfl
  have hcnt : (rustLines bigDown.buffer).length = 65538 := by
    rw [hlines, List.length_append, List.length_cons, List.length_cons,
      List.length_append, List.length_replicate]
    norm_num
  have hline1 : (rustLines bigDown.buffer)[(1 : Nat)]? = some ['a', 'a'] := by
    rw [hlines, List.getElem?_append_left (by
      rw [List.length_cons, List.length_cons, List.length_append,
        List.length_replicate]
      norm_num),
      show (1 : Nat) = 0 + 1 from rfl, List.getElem?_cons_succ,
      List.getElem?_cons_zero]
  have hskip : skipRow bigDown.buffer 0 (bigDown.buffer.length + 2)
      bigDown.cursor = some 65542 := by
    rw [hlen, show (65543 : Nat) + 2 = 65545 from rfl,
      show bigDown.cursor = 65541 from rfl,
      show (65545 : Nat) = 65544 + 1 from rfl, skipRow_step, hrow41,
      if_pos rfl, show (65541 : Nat) + 1 = 65542 from rfl,
      show (65544 : Nat) = 65543 + 1 from rfl, skipRow_step, hrow42,
      if_neg (by decide)]
  have hgcoq : (Poem.mk bigDown.buffer 65542 3 bigDown.name :
      Poem).get_cursor_offset = (0, 1) := by
    rw [gco_mk, hoff42]
    decide
  have hds : downStep bigDown = some (Poem.mk bigDown.buffer 65544 3 none) := by
    rw [downStep_skip_branch bigDown 3 0 hgco (by rw [hcnt]; norm_num)
      (by rw [hcnt]; norm_num) (by norm_num) ['a', 'a'] hline1 (by decide)
      65542 hskip,
      cursor_end_line_some _ 0 1 hgcoq ['a', 'a'] hline1 (by decide)]
    rfl
  have hnw : ¬ wfOpt (downStep bigDown) := by
    rw [hds, wfOpt_mk, hlen]
    norm_num
  exact ⟨hwf, by rw [hds]; rfl, hlen, hnw, not_preserves_of_down bigDown hnw⟩
